import Mathlib

/-!
# A verification development for the command-line task manager (`main.c`)

The C program keeps a growable array of `Task` records in a `todoList`
(`tasks`, `count`, `capacity`), sorts it in place with a Lomuto quicksort on
`priority`, deletes by name, and saves to / loads from a comma-separated text
file.

Conventions of the embedding:

* A C string is the list of its characters before the terminating NUL.
* The heap buffer `tasks` is the list of its allocated slots: its length is the
  number of `Task` slots the allocation holds, and the null pointer is the
  buffer with no slot.  Slots that were never written hold `uninitTask`.
* `int` is 32 bits wide, `size_t` is 64 bits wide; the `int` computations that
  update `capacity` and `count` (`capacity * 2`, `count++`, `count--`) are
  reduced with `wrapInt`.  Array indices are `Int`, so that `low - 1` may be
  `-1`; they stay between `-1` and count.
* Every array access goes through `readAt` / `writeAt`, which return `none`
  outside the buffer; a function returns `none` exactly when it would access
  memory outside the allocation.
* The outcome of an allocation is an explicit `Bool` argument (`true`: the
  allocator has the memory); a request of more than `PTRDIFF_MAX` bytes fails
  whatever the argument.  A doubled capacity beyond the `int` range wraps to a
  negative `int`, whose byte count in `size_t` is such a request.
* A file is the list of its characters; a file that cannot be opened is
  `none`.  `atoi` is `(int) strtol(s, NULL, 10)` with a 64-bit `long`.
-/

namespace TaskManager

/-! ## Data model -/

/-- The record `Task`: `char name[100]`, `int priority`, `int completed`. -/
structure Task where
  name : List Char
  priority : Int
  completed : Int
deriving DecidableEq, Repr

/-- The record `todoList`: the buffer `tasks`, `count` and `capacity`. -/
structure todoList where
  tasks : List Task
  count : Int
  capacity : Int
deriving DecidableEq, Repr

/-- Two's-complement reduction of an integer to the 32-bit `int` range. -/
def wrapInt (x : Int) : Int := (x + 2147483648) % 4294967296 - 2147483648

/-- The value of `sizeof(Task)`: 100 bytes of name and two 4-byte integers. -/
def sizeofTask : Nat := 108

/-- The largest request an allocation can satisfy (`PTRDIFF_MAX`). -/
def allocMax : Nat := 9223372036854775807

/-- The value of `sizeof(Task) * n` computed in `size_t`, for an `int` n. -/
def allocBytes (n : Int) : Nat := (((sizeofTask : Int) * n) % 18446744073709551616).toNat

/-- The content of a slot that has been allocated and never written. -/
def uninitTask : Task := { name := [], priority := 0, completed := 0 }

/-- The call `malloc(bytes)` for an array of `Task`. -/
def malloc (ok : Bool) (bytes : Nat) : Option (List Task) :=
  if ok && decide (bytes ≤ allocMax) then
    some (List.replicate (bytes / sizeofTask) uninitTask)
  else none

/-- The call `realloc(buf, bytes)`: on success the old slots are kept, up to
the new size, and the added slots are unwritten. -/
def realloc (ok : Bool) (buf : List Task) (bytes : Nat) : Option (List Task) :=
  if ok && decide (bytes ≤ allocMax) then
    some (buf.take (bytes / sizeofTask)
      ++ List.replicate (bytes / sizeofTask - buf.length) uninitTask)
  else none

/-- The read `arr[i]`. -/
def readAt (arr : List Task) (i : Int) : Option Task :=
  if 0 ≤ i then arr[i.toNat]? else none

/-- The assignment `arr[i] = t`. -/
def writeAt (arr : List Task) (i : Int) (t : Task) : Option (List Task) :=
  if 0 ≤ i ∧ i.toNat < arr.length then some (arr.set i.toNat t) else none

/-- The live entries of a store: the slots at indices `0 .. count - 1`. -/
def entries (td : todoList) : List Task := td.tasks.take td.count.toNat

/-- A store whose fields agree with its buffer: `0 ≤ count ≤ capacity`, the
buffer holds `capacity` slots, and `capacity` is an `int`. -/
def Valid (td : todoList) : Prop :=
  0 ≤ td.count ∧ td.count ≤ td.capacity ∧ (td.tasks.length : Int) = td.capacity
    ∧ td.capacity < 2147483648

instance (td : todoList) : Decidable (Valid td) :=
  inferInstanceAs (Decidable (0 ≤ td.count ∧ td.count ≤ td.capacity
    ∧ (td.tasks.length : Int) = td.capacity ∧ td.capacity < 2147483648))

/-! ## The store: `initializeList`, `initializeTask`, `capacityCheck`, `addTask` -/

/-- The function `initializeList`: count 0, capacity 10, a fresh buffer of 10 slots.  The
result is `none` when `malloc` fails and the process exits. -/
def initializeList (ok : Bool) : Option todoList :=
  match malloc ok (allocBytes 10) with
  | none => none
  | some buf => some { tasks := buf, count := 0, capacity := 10 }

/-- The call `strncpy(dst, src, n)` followed by `dst[n] = 0`, as the string now in
`dst`: the first `n` characters of `src`. -/
def strncpy (src : List Char) (n : Nat) : List Char := src.take n

/-- The function `initializeTask`: the value written to `*t`. -/
def initializeTask (name : List Char) (priority : Int) (completion : Int) : Task :=
  { name := strncpy name 99, priority := priority, completed := completion }

/-- The function `capacityCheck`: the return code and the store afterwards. -/
def capacityCheck (ok : Bool) (td : todoList) : Int × todoList :=
  if td.count ≥ td.capacity then
    let newCapacity := wrapInt (td.capacity * 2)
    match realloc ok td.tasks (allocBytes newCapacity) with
    | none => (1, td)
    | some tmp => (0, { td with tasks := tmp, capacity := newCapacity })
  else (0, td)

/-- The function `addTask`: the store afterwards. -/
def addTask (ok : Bool) (td : todoList) (name : List Char) (priority : Int) :
    Option todoList :=
  match capacityCheck ok td with
  | (rc, td1) =>
    if rc ≠ 0 then some td1
    else
      match writeAt td1.tasks td1.count (initializeTask name priority 0) with
      | none => none
      | some ts => some { td1 with tasks := ts, count := wrapInt (td1.count + 1) }

/-! ## Sorting: `swap`, `partition`, `quickSortRecursion`, `sortTasks` -/

/-- The call `swap(&arr[a], &arr[b])`: the array afterwards. -/
def swap (arr : List Task) (a b : Int) : Option (List Task) :=
  match readAt arr a, readAt arr b with
  | some tmp, some vb =>
    match writeAt arr a vb with
    | some arr1 => writeAt arr1 b tmp
    | none => none
  | _, _ => none

/-- The `for` loop of `partition`, entered with the current `i` and `j`. -/
def partitionLoop (piv : Int) (high : Int) (arr : List Task) (i j : Int) :
    Option (List Task × Int) :=
  if j < high then
    match readAt arr j with
    | none => none
    | some aj =>
      if aj.priority < piv then
        match swap arr (i + 1) j with
        | none => none
        | some arr1 => partitionLoop piv high arr1 (i + 1) (j + 1)
      else partitionLoop piv high arr i (j + 1)
  else some (arr, i)
termination_by (high - j).toNat
decreasing_by all_goals omega

/-- The function `partition`: the array afterwards and the returned index. -/
def partition (arr : List Task) (low high : Int) : Option (List Task × Int) :=
  match readAt arr high with
  | none => none
  | some ph =>
    match partitionLoop ph.priority high arr (low - 1) low with
    | none => none
    | some (arr1, i) =>
      match swap arr1 (i + 1) high with
      | none => none
      | some arr2 => some (arr2, i + 1)

/-- The loop of `partition` moves `i` up by at most one per iteration. -/
theorem partitionLoop_index (piv high : Int) (arr : List Task) (i j : Int)
    (arr1 : List Task) (i1 : Int)
    (h : partitionLoop piv high arr i j = some (arr1, i1)) :
    i ≤ i1 ∧ (j ≤ high → i1 - i ≤ high - j) := by
  induction arr, i, j using partitionLoop.induct piv high with
  | case1 arr i j hj hr =>
    rw [partitionLoop] at h; simp [hj, hr] at h
  | case2 arr i j hj aj hr hp hs =>
    rw [partitionLoop] at h; simp [hj, hr, hp, hs] at h
  | case3 arr i j hj aj hr hp arr2 hs ih =>
    rw [partitionLoop] at h; simp [hj, hr, hp, hs] at h
    have := ih h
    omega
  | case4 arr i j hj aj hr hp ih =>
    rw [partitionLoop] at h; simp [hj, hr, hp] at h
    have := ih h
    omega
  | case5 arr i j hj =>
    rw [partitionLoop] at h; simp [hj] at h
    omega

/-- The index returned by `partition` lies in `[low, high]`. -/
theorem partition_index (arr : List Task) (low high : Int) (arr1 : List Task) (p : Int)
    (hlh : low ≤ high) (h : partition arr low high = some (arr1, p)) :
    low ≤ p ∧ p ≤ high := by
  unfold partition at h
  split at h
  · simp at h
  · split at h
    · simp at h
    · rename_i ph _ arr0 i hl
      split at h
      · simp at h
      · simp at h
        have := partitionLoop_index _ _ _ _ _ _ _ hl
        omega

/-- The function `quickSortRecursion`: the array afterwards. -/
def quickSortRecursion (arr : List Task) (low high : Int) : Option (List Task) :=
  if hlh : low < high then
    match hp : partition arr low high with
    | none => none
    | some (arr1, piv) =>
      match quickSortRecursion arr1 low (piv - 1) with
      | none => none
      | some arr2 => quickSortRecursion arr2 (piv + 1) high
  else some arr
termination_by (high - low).toNat
decreasing_by
  all_goals
    have hb := partition_index arr low high arr1 piv (le_of_lt hlh) hp
    omega

/-- The function `sortTasks`: the store afterwards. -/
def sortTasks (td : todoList) : Option todoList :=
  if td.count > 1 then
    match quickSortRecursion td.tasks 0 (td.count - 1) with
    | none => none
    | some ts => some { td with tasks := ts }
  else some td

/-! ## Deleting: `deleteTask` -/

/-- The call `strcmp(a, b)`: zero exactly for equal strings, otherwise the
sign of the lexicographic comparison. -/
def strcmp (a b : List Char) : Int :=
  if a = b then 0 else if a < b then -1 else 1

/-- The inner loop of `deleteTask`, entered with the current `j`: every entry
after the match moves one slot to the left. -/
def shiftLoop (count : Int) (tasks : List Task) (j : Int) : Option (List Task) :=
  if j < count - 1 then
    match readAt tasks (j + 1) with
    | none => none
    | some t =>
      match writeAt tasks j t with
      | none => none
      | some tasks1 => shiftLoop count tasks1 (j + 1)
  else some tasks
termination_by (count - 1 - j).toNat
decreasing_by all_goals omega

/-- The outer loop of `deleteTask`, entered with the current `i`: the return
code and the store afterwards. -/
def deleteLoop (td : todoList) (name : List Char) (i : Int) : Option (Int × todoList) :=
  if i < td.count then
    match readAt td.tasks i with
    | none => none
    | some t =>
      if strcmp t.name name = 0 then
        match shiftLoop td.count td.tasks i with
        | none => none
        | some ts => some (0, { td with tasks := ts, count := wrapInt (td.count - 1) })
      else deleteLoop td name (i + 1)
  else some (1, td)
termination_by (td.count - i).toNat
decreasing_by all_goals omega

/-- The function `deleteTask`: the return code and the store afterwards. -/
def deleteTask (td : todoList) (name : List Char) : Option (Int × todoList) :=
  deleteLoop td name 0

/-! ## Persistence: `saveTasks`, `freeList`, `loadTasks` -/

/-- The conversion `%d` of `fprintf`: a minus sign for a negative number, then
the decimal digits without padding. -/
def fmtInt (n : Int) : List Char :=
  if n < 0 then '-' :: Nat.toDigits 10 n.natAbs else Nat.toDigits 10 n.toNat

/-- The text written by `fprintf(fp, "%s,%d,%d\n", name, priority, completed)`. -/
def fprintfTask (t : Task) : List Char :=
  t.name ++ [','] ++ fmtInt t.priority ++ [','] ++ fmtInt t.completed ++ ['\n']

/-- The loop of `saveTasks`, entered with the current `i` and the text written
so far: the text written when the loop ends. -/
def saveLoop (td : todoList) (i : Int) (out : List Char) : Option (List Char) :=
  if i < td.count then
    match readAt td.tasks i with
    | none => none
    | some t => saveLoop td (i + 1) (out ++ fprintfTask t)
  else some out
termination_by (td.count - i).toNat
decreasing_by all_goals omega

/-- The function `saveTasks`: the return code and, when the file was opened (`canOpen`), the
new content of the file.  The store is only read. -/
def saveTasks (canOpen : Bool) (td : todoList) : Option (Int × Option (List Char)) :=
  if canOpen then
    match saveLoop td 0 [] with
    | none => none
    | some out => some (0, some out)
  else some (1, none)

/-- The function `freeList`: the buffer is released and the pointer set to null, count and
capacity are 0. -/
def freeList (_td : todoList) : todoList :=
  { tasks := [], count := 0, capacity := 0 }

/-- The characters `fgets` stores when it may still store `k` of them: it
stops after a newline, at the end of the file, or when `k` are stored.  The
second component is the unread rest of the file. -/
def readLine : Nat → List Char → List Char × List Char
  | 0, s => ([], s)
  | _ + 1, [] => ([], [])
  | k + 1, c :: s =>
    if c = '\n' then ([c], s) else (c :: (readLine k s).1, (readLine k s).2)

/-- The call `fgets(buffer, size, fp)`: `none` at the end of the file, else
the characters stored and the unread rest of the file. -/
def fgets (size : Nat) (stream : List Char) : Option (List Char × List Char) :=
  match stream with
  | [] => none
  | _ :: _ => some (readLine (size - 1) stream)

/-- The C string held by a buffer: its characters before the first NUL. -/
def cstr (buf : List Char) : List Char := buf.takeWhile (fun c => c ≠ Char.ofNat 0)

/-- The call `strcspn(s, reject)`: the length of the longest prefix of `s`
without a character of `reject`. -/
def strcspn (s reject : List Char) : Nat :=
  (s.takeWhile (fun c => decide (c ∉ reject))).length

/-- The call `strtok` with the delimiters `delim` on the string `s` still to
be scanned: the token (`none` for a null result) and the string left for the
next call. -/
def strtok (s delim : List Char) : Option (List Char) × List Char :=
  match s.dropWhile (fun c => decide (c ∈ delim)) with
  | [] => (none, [])
  | c :: r =>
    (some ((c :: r).takeWhile (fun x => decide (x ∉ delim))),
      ((c :: r).dropWhile (fun x => decide (x ∉ delim))).drop 1)

/-- The test `isspace` in the C locale. -/
def isspace (c : Char) : Bool :=
  c = ' ' || c = '\t' || c = '\n' || c = Char.ofNat 11 || c = Char.ofNat 12 || c = '\r'

/-- The number denoted by the leading decimal digits of `s`, after `acc`. -/
def digitsValue (acc : Nat) : List Char → Nat
  | [] => acc
  | c :: cs => if c.isDigit then digitsValue (acc * 10 + (c.toNat - 48)) cs else acc

/-- The call `strtol(s, NULL, 10)` with a 64-bit `long`: leading white space
is skipped, a sign is accepted, the leading digits are read, and a value
outside the range of `long` is replaced by the nearest bound. -/
def strtol (s : List Char) : Int :=
  match s.dropWhile isspace with
  | '-' :: r => max (-(digitsValue 0 r : Int)) (-9223372036854775808)
  | '+' :: r => min (digitsValue 0 r : Int) 9223372036854775807
  | r => min (digitsValue 0 r : Int) 9223372036854775807

/-- The call `atoi(s)`, which is `(int) strtol(s, NULL, 10)`. -/
def atoi (s : List Char) : Int := wrapInt (strtol s)

/-- Reading with room for at least one character consumes at least one
character of a file that has not ended. -/
theorem readLine_rest_length (k : Nat) (c : Char) (s : List Char) :
    (readLine (k + 1) (c :: s)).2.length < (c :: s).length := by
  induction k generalizing c s with
  | zero =>
    unfold readLine
    split
    · simp
    · cases s <;> simp [readLine]
  | succ k ih =>
    unfold readLine
    split
    · simp
    · cases s with
      | nil => simp [readLine]
      | cons d s =>
        have := ih d s
        simp only [List.length_cons] at this ⊢
        omega

/-- A successful `fgets` with a buffer of at least two bytes shortens the
unread part of the file. -/
theorem fgets_rest_length (size : Nat) (stream buffer rest : List Char)
    (hsize : 2 ≤ size) (h : fgets size stream = some (buffer, rest)) :
    rest.length < stream.length := by
  unfold fgets at h
  cases stream with
  | nil => simp at h
  | cons c s =>
    simp only [Option.some.injEq] at h
    obtain ⟨k, rfl⟩ : ∃ k, size = k + 2 := ⟨size - 2, by omega⟩
    have := readLine_rest_length k c s
    rw [show k + 2 - 1 = k + 1 by omega] at h
    rw [h] at this
    exact this

/-- The `while` loop of `loadTasks` on the unread part of the file: the return
code and the store afterwards.  `ok k` tells whether the allocator has the
memory for a `realloc` in the `k`-th coming iteration. -/
def loadLoop (ok : Nat → Bool) (td : todoList) (stream : List Char) :
    Option (Int × todoList) :=
  match hf : fgets 256 stream with
  | none => some (0, td)
  | some (buf, rest) =>
    match capacityCheck (ok 0) td with
    | (rc, td1) =>
      if rc ≠ 0 then some (1, td1)
      else
        let buffer := cstr buf
        let line := buffer.take (strcspn buffer ['\n'])
        let taskName := strtok line [',']
        let priority := strtok taskName.2 [',']
        let completion := strtok priority.2 [',']
        match taskName.1, priority.1, completion.1 with
        | some n, some p, some c =>
          match writeAt td1.tasks td1.count (initializeTask n (atoi p) (atoi c)) with
          | none => none
          | some ts =>
            loadLoop (fun k => ok (k + 1))
              { td1 with tasks := ts, count := wrapInt (td1.count + 1) } rest
        | _, _, _ => some (0, td1)
termination_by stream.length
decreasing_by exact fgets_rest_length 256 stream buf rest (by decide) hf

/-- The function `loadTasks`: the return code and the store afterwards; `file` is the
content of the file, `none` when it cannot be opened. -/
def loadTasks (ok : Nat → Bool) (td : todoList) (file : Option (List Char)) :
    Option (Int × todoList) :=
  match file with
  | none => some (1, freeList td)
  | some content => loadLoop ok td content

/-! ## The command loop -/

/-- The loop of `runMainLoop` that rewrites the name typed by the user before
`addTask` is called: every comma becomes a semicolon. -/
def replaceCommas (name : List Char) : List Char :=
  name.map (fun c => if c = ',' then ';' else c)

/-! ## Example stores -/

/-- The store after `initializeList`. -/
def emptyStore : todoList :=
  { tasks := List.replicate 10 uninitTask, count := 0, capacity := 10 }

/-- The store of the end-to-end example: "Buy milk" with priority 2, then
"Write report" with priority 1, then "Call dentist" with priority 3. -/
def milkStore : todoList :=
  { tasks := [{ name := "Buy milk".toList, priority := 2, completed := 0 },
              { name := "Write report".toList, priority := 1, completed := 0 },
              { name := "Call dentist".toList, priority := 3, completed := 0 }]
              ++ List.replicate 7 uninitTask,
    count := 3, capacity := 10 }

/-! ## Sequences of calls -/

/-- Consecutive calls of `addTask`, one per item: the allocator outcome, the
name and the priority of the call. -/
def addTasks (td : todoList) : List (Bool × List Char × Int) → Option todoList
  | [] => some td
  | (ok, name, priority) :: rest =>
    match addTask ok td name priority with
    | none => none
    | some td1 => addTasks td1 rest

/-- Whether `capacityCheck` reports success in every call of the sequence
`addTasks td items`: no reallocation fails. -/
def growthSucceeds (td : todoList) : List (Bool × List Char × Int) → Bool
  | [] => true
  | (ok, name, priority) :: rest =>
    decide ((capacityCheck ok td).1 = 0) &&
      match addTask ok td name priority with
      | none => false
      | some td1 => growthSucceeds td1 rest

/-- A store whose buffer is full: two entries in two slots. -/
def fullStore : todoList :=
  { tasks := [{ name := "a".toList, priority := 1, completed := 0 },
              { name := "b".toList, priority := 2, completed := 0 }],
    count := 2, capacity := 2 }

/-- A store with two entries of the same name around a third one. -/
def dupStore : todoList :=
  { tasks := [{ name := "a".toList, priority := 3, completed := 0 },
              { name := "b".toList, priority := 2, completed := 0 },
              { name := "a".toList, priority := 1, completed := 0 },
              uninitTask],
    count := 3, capacity := 4 }

/-! ## Saved text -/

/-- The text of the lines `saveTasks` writes for a sequence of tasks. -/
def linesOf : List Task → List Char
  | [] => []
  | t :: ts => fprintfTask t ++ linesOf ts

/-- A task whose fields are C values that survive a save and a load: the name
is a non-empty string of at most 99 characters without a comma or a newline
(and, as every C string, without NUL), and both numbers are `int`s. -/
def Storable (t : Task) : Prop :=
  t.name ≠ [] ∧ ',' ∉ t.name ∧ '\n' ∉ t.name ∧ Char.ofNat 0 ∉ t.name ∧ t.name.length ≤ 99
    ∧ (-2147483648 ≤ t.priority ∧ t.priority < 2147483648)
    ∧ (-2147483648 ≤ t.completed ∧ t.completed < 2147483648)

instance (t : Task) : Decidable (Storable t) :=
  inferInstanceAs (Decidable (t.name ≠ [] ∧ ',' ∉ t.name ∧ '\n' ∉ t.name
    ∧ Char.ofNat 0 ∉ t.name ∧ t.name.length ≤ 99
    ∧ (-2147483648 ≤ t.priority ∧ t.priority < 2147483648)
    ∧ (-2147483648 ≤ t.completed ∧ t.completed < 2147483648)))

/-- A store with one entry whose name is the empty string. -/
def emptyNameStore : todoList :=
  { tasks := { name := [], priority := 1, completed := 0 } :: List.replicate 9 uninitTask,
    count := 1, capacity := 10 }

/-! ## Definitions used to state the properties -/

/-- A store with two entries of the same priority. -/
def tieStore : todoList :=
  { tasks := [{ name := "first".toList, priority := 2, completed := 0 },
              { name := "second".toList, priority := 2, completed := 0 }]
              ++ List.replicate 8 uninitTask,
    count := 2, capacity := 10 }

/-- The entries of an array at the indices `low .. high`. -/
def slice (arr : List Task) (low high : Int) : List Task :=
  (arr.drop low.toNat).take (high - low + 1).toNat

/-- The store cut to its live slots: the buffer is the first count slots. -/
def cutStore (td : todoList) : todoList :=
  { td with tasks := entries td }

/-- The names `loadTasks` can store: non-empty, without comma or newline, of at
most 99 characters. -/
def LoadedName (n : List Char) : Prop :=
  n ≠ [] ∧ ',' ∉ n ∧ '\n' ∉ n ∧ n.length ≤ 99

/-- A field of a line as `loadTasks` can read it back: non-empty, without
comma, newline or NUL. -/
def FieldText (f : List Char) : Prop :=
  f ≠ [] ∧ ',' ∉ f ∧ '\n' ∉ f ∧ Char.ofNat 0 ∉ f

instance (f : List Char) : Decidable (FieldText f) :=
  inferInstanceAs (Decidable (f ≠ [] ∧ ',' ∉ f ∧ '\n' ∉ f ∧ Char.ofNat 0 ∉ f))

/-- The number a field denotes under lenient parsing, in the words of the
specification: leading white space and one sign are passed over, the leading
decimal digits are read, a minus sign negates, and the value is 0 when no
digit is there. -/
def leadingNumber (s : List Char) : Int :=
  match s.dropWhile isspace with
  | '-' :: r => -(digitsValue 0 r : Int)
  | '+' :: r => (digitsValue 0 r : Int)
  | r => (digitsValue 0 r : Int)

/-- A file whose only line `x,7,00...05` has 256 characters before its
newline: the third field is 251 zeros followed by the digit 5. -/
def longLineFile : List Char :=
  "x,7,".toList ++ List.replicate 251 '0' ++ "5\n".toList

/-- One call of an operation of the store, with what the environment decides:
the allocator outcomes and the file. -/
inductive Op where
  | add (ok : Bool) (name : List Char) (priority : Int)
  | delete (name : List Char)
  | sort
  | save (canOpen : Bool)
  | load (ok : Nat → Bool) (file : Option (List Char))
  | free

/-- The store after one operation; `none` when the operation accesses memory
outside the buffer. -/
def step (td : todoList) : Op → Option todoList
  | Op.add ok name priority => addTask ok td name priority
  | Op.delete name => (deleteTask td name).map (fun r => r.2)
  | Op.sort => sortTasks td
  | Op.save canOpen => (saveTasks canOpen td).map (fun _ => td)
  | Op.load ok file => (loadTasks ok td file).map (fun r => r.2)
  | Op.free => some (freeList td)

/-- The store after a sequence of operations. -/
def run (td : todoList) : List Op → Option todoList
  | [] => some td
  | op :: ops =>
    match step td op with
    | none => none
    | some td1 => run td1 ops

/-- The operations that release the buffer: `freeList`, and `loadTasks` of a
file that cannot be opened. -/
def releases : Op → Bool
  | Op.free => true
  | Op.load _ none => true
  | _ => false

/-- The operations that may write a new entry: `addTask`, and `loadTasks` of a
file that opens. -/
def appends : Op → Bool
  | Op.add _ _ _ => true
  | Op.load _ (some _) => true
  | _ => false

/-- No operation that may write a new entry comes after an operation that
releases the buffer. -/
def noAppendAfterRelease : List Op → Bool
  | [] => true
  | op :: ops =>
    (if releases op then ops.all (fun o => !appends o) else true) && noAppendAfterRelease ops

/-! ## Lemmas on array accesses and on the sort -/


/-- Reading the slot right after the prefix `A`. -/
theorem readAt_append_cons (A : List Task) (x : Task) (B : List Task) (i : Int)
    (hi : i = (A.length : Int)) : readAt (A ++ x :: B) i = some x := by
  subst hi
  have h : (A ++ x :: B)[A.length]? = some x := by
    rw [List.getElem?_append_right (le_refl _)]; simp
  simp [readAt, h]

/-- Writing the slot right after the prefix `A`. -/
theorem writeAt_append_cons (A : List Task) (x y : Task) (B : List Task) (i : Int)
    (hi : i = (A.length : Int)) : writeAt (A ++ x :: B) i y = some (A ++ y :: B) := by
  subst hi
  simp [writeAt]

/-- Swapping a slot with itself leaves the array unchanged. -/
theorem swap_same (A : List Task) (x : Task) (B : List Task) (i j : Int)
    (hi : i = (A.length : Int)) (hj : j = i) : swap (A ++ x :: B) i j = some (A ++ x :: B) := by
  subst hj
  simp [swap, readAt_append_cons A x B j hi, writeAt_append_cons A x x B j hi]

/-- Swapping two slots that hold `x` and `y`, the second one further right. -/
theorem swap_apart (A : List Task) (x : Task) (B : List Task) (y : Task) (C : List Task)
    (i j : Int) (hi : i = (A.length : Int)) (hj : j = (A.length : Int) + 1 + (B.length : Int)) :
    swap (A ++ x :: (B ++ y :: C)) i j = some (A ++ y :: (B ++ x :: C)) := by
  have e1 : ∀ u v : Task, A ++ u :: (B ++ v :: C) = (A ++ u :: B) ++ v :: C := by
    intro u v; simp
  have hj2 : ∀ u : Task, j = ((A ++ u :: B).length : Int) := by
    intro u; simp [hj]; ring
  have r1 : readAt (A ++ x :: (B ++ y :: C)) i = some x := readAt_append_cons A x _ i hi
  have r2 : readAt (A ++ x :: (B ++ y :: C)) j = some y := by
    rw [e1]; exact readAt_append_cons _ y C j (hj2 x)
  have w1 : writeAt (A ++ x :: (B ++ y :: C)) i y = some (A ++ y :: (B ++ y :: C)) :=
    writeAt_append_cons A x y _ i hi
  have w2 : writeAt (A ++ y :: (B ++ y :: C)) j x = some (A ++ y :: (B ++ x :: C)) := by
    rw [e1, e1]; exact writeAt_append_cons _ y x C j (hj2 y)
  simp [swap, r1, r2, w1, w2]

/-- The loop of `partition` ends when `j` reaches `high`. -/
theorem partitionLoop_done (piv high : Int) (arr : List Task) (i j : Int) (h : ¬ j < high) :
    partitionLoop piv high arr i j = some (arr, i) := by
  rw [partitionLoop]; simp [h]

/-- One iteration of the loop of `partition`. -/
theorem partitionLoop_step (piv high : Int) (arr : List Task) (i j : Int) (h : j < high) :
    partitionLoop piv high arr i j =
      match readAt arr j with
      | none => none
      | some aj =>
        if aj.priority < piv then
          match swap arr (i + 1) j with
          | none => none
          | some arr1 => partitionLoop piv high arr1 (i + 1) (j + 1)
        else partitionLoop piv high arr i (j + 1) := by
  rw [partitionLoop]; simp only [h, if_true]

/-- The invariant of the loop of `partition`: after the untouched prefix `pre` come the
entries `Ls` below the pivot, the entries `Gs` not below it, the entries `rest` still to
be examined, and the pivot `pvt`. -/
theorem partitionLoop_spec (piv : Int) (pre : List Task) (pvt : Task) (post : List Task) :
    ∀ (rest Ls Gs : List Task) (high i j : Int),
      i = (pre.length : Int) + Ls.length - 1 →
      j = (pre.length : Int) + Ls.length + Gs.length →
      high = j + rest.length →
      (∀ a ∈ Ls, a.priority < piv) → (∀ a ∈ Gs, piv ≤ a.priority) →
      ∃ Ls1 Gs1,
        partitionLoop piv high (pre ++ (Ls ++ (Gs ++ (rest ++ pvt :: post)))) i j
          = some (pre ++ (Ls1 ++ (Gs1 ++ pvt :: post)), (pre.length : Int) + Ls1.length - 1)
        ∧ (Ls1 ++ Gs1).Perm (Ls ++ (Gs ++ rest))
        ∧ (∀ a ∈ Ls1, a.priority < piv) ∧ (∀ a ∈ Gs1, piv ≤ a.priority) := by
  intro rest
  induction rest with
  | nil =>
    intro Ls Gs high i j hi hj hh hL hG
    refine ⟨Ls, Gs, ?_, by simp, hL, hG⟩
    rw [partitionLoop_done _ _ _ _ _ (by simp at hh; omega)]
    simp [hi]
  | cons x r ih =>
    intro Ls Gs high i j hi hj hh hL hG
    have hlt : j < high := by simp at hh; omega
    have hread : readAt (pre ++ (Ls ++ (Gs ++ (x :: r ++ pvt :: post)))) j = some x := by
      have e : pre ++ (Ls ++ (Gs ++ (x :: r ++ pvt :: post)))
          = (pre ++ (Ls ++ Gs)) ++ x :: (r ++ pvt :: post) := by simp
      rw [e]
      exact readAt_append_cons _ x _ j (by simp [hj]; ring)
    rw [partitionLoop_step _ _ _ _ _ hlt, hread]
    by_cases hx : x.priority < piv
    · simp only [hx, if_true]
      cases Gs with
      | nil =>
        have e : pre ++ (Ls ++ ([] ++ (x :: r ++ pvt :: post)))
            = (pre ++ Ls) ++ x :: (r ++ pvt :: post) := by simp
        have hs := swap_same (pre ++ Ls) x (r ++ pvt :: post) (i + 1) j
          (by simp [hi]) (by simp at hj; omega)
        rw [e, hs]
        obtain ⟨Ls1, Gs1, h1, h2, h3, h4⟩ := ih (Ls ++ [x]) [] high (i + 1) (j + 1)
          (by simp [hi]; ring) (by simp [hj]; ring) (by simp at hh ⊢; omega)
          (by intro a ha; simp at ha; rcases ha with ha | ha; exact hL a ha; exact ha ▸ hx)
          (by simp)
        refine ⟨Ls1, Gs1, ?_, ?_, h3, h4⟩
        · simp only [List.nil_append, List.append_assoc, List.singleton_append] at h1 ⊢
          exact h1
        · simpa using h2
      | cons g G =>
        have e : pre ++ (Ls ++ (g :: G ++ (x :: r ++ pvt :: post)))
            = (pre ++ Ls) ++ g :: (G ++ x :: (r ++ pvt :: post)) := by simp
        have hs := swap_apart (pre ++ Ls) g G x (r ++ pvt :: post) (i + 1) j
          (by simp [hi]) (by simp at hj ⊢; omega)
        rw [e, hs]
        obtain ⟨Ls1, Gs1, h1, h2, h3, h4⟩ := ih (Ls ++ [x]) (G ++ [g]) high (i + 1) (j + 1)
          (by simp [hi]; ring) (by simp [hj]; ring) (by simp at hh ⊢; omega)
          (by intro a ha; simp at ha; rcases ha with ha | ha; exact hL a ha; exact ha ▸ hx)
          (by intro a ha; simp at ha; rcases ha with ha | ha
              · exact hG a (by simp [ha])
              · exact hG a (by simp [ha]))
        refine ⟨Ls1, Gs1, ?_, ?_, h3, h4⟩
        · simp only [List.nil_append, List.append_assoc, List.singleton_append,
            List.cons_append] at h1 ⊢
          exact h1
        · refine h2.trans ?_
          simp only [List.append_assoc, List.singleton_append, List.cons_append]
          refine List.Perm.append_left Ls ?_
          have : (x :: (G ++ g :: r)).Perm (g :: (G ++ x :: r)) := by
            have a1 : (G ++ g :: r).Perm (g :: (G ++ r)) := List.perm_middle
            have a2 : (G ++ x :: r).Perm (x :: (G ++ r)) := List.perm_middle
            exact ((List.Perm.cons x a1).trans (List.Perm.swap g x _)).trans
              (List.Perm.cons g a2.symm)
          exact this
    · simp only [hx, if_false]
      obtain ⟨Ls1, Gs1, h1, h2, h3, h4⟩ := ih Ls (Gs ++ [x]) high i (j + 1)
        hi (by simp [hj]; ring) (by simp at hh ⊢; omega) hL
        (by intro a ha; simp at ha; rcases ha with ha | ha
            · exact hG a ha
            · exact ha ▸ (not_lt.mp hx))
      refine ⟨Ls1, Gs1, ?_, ?_, h3, h4⟩
      · simp only [List.nil_append, List.append_assoc, List.singleton_append,
          List.cons_append] at h1 ⊢
        exact h1
      · simpa using h2

/-- The contract of `partition` on the range `m ++ [pvt]` that follows `pre`. -/
theorem partition_spec (pre m : List Task) (pvt : Task) (post : List Task) (low high : Int)
    (hl : low = (pre.length : Int)) (hh : high = (pre.length : Int) + m.length) :
    ∃ L R, partition (pre ++ (m ++ pvt :: post)) low high
        = some (pre ++ (L ++ pvt :: (R ++ post)), (pre.length : Int) + L.length)
      ∧ (L ++ R).Perm m
      ∧ (∀ a ∈ L, a.priority < pvt.priority) ∧ (∀ a ∈ R, pvt.priority ≤ a.priority) := by
  have hread : readAt (pre ++ (m ++ pvt :: post)) high = some pvt := by
    have e : pre ++ (m ++ pvt :: post) = (pre ++ m) ++ pvt :: post := by simp
    rw [e]
    exact readAt_append_cons _ pvt _ high (by simp [hh])
  obtain ⟨Ls1, Gs1, h1, h2, h3, h4⟩ :=
    partitionLoop_spec pvt.priority pre pvt post m [] [] high (low - 1) low
      (by simp [hl]) (by simp [hl]) (by simp [hl, hh]) (by simp) (by simp)
  simp only [List.nil_append] at h1 h2
  have hlen : Ls1.length + Gs1.length = m.length := by
    have := h2.length_eq
    simpa using this
  unfold partition
  rw [hread]
  simp only [h1]
  cases Gs1 with
  | nil =>
    have hs := swap_same (pre ++ Ls1) pvt post ((pre.length : Int) + Ls1.length - 1 + 1) high
      (by simp) (by simp at hlen; rw [hh, ← hlen]; ring)
    have e : pre ++ (Ls1 ++ ([] ++ pvt :: post)) = (pre ++ Ls1) ++ pvt :: post := by simp
    rw [e, hs]
    refine ⟨Ls1, [], ?_, by simpa using h2, h3, by simp⟩
    simp
  | cons g G =>
    have hs := swap_apart (pre ++ Ls1) g G pvt post ((pre.length : Int) + Ls1.length - 1 + 1) high
      (by simp) (by simp at hlen ⊢; rw [hh, ← hlen]; push_cast; ring)
    have e : pre ++ (Ls1 ++ (g :: G ++ pvt :: post)) = (pre ++ Ls1) ++ g :: (G ++ pvt :: post) := by
      simp
    rw [e, hs]
    refine ⟨Ls1, G ++ [g], ?_, ?_, h3, ?_⟩
    · simp
    · refine List.Perm.trans ?_ h2
      refine List.Perm.append_left Ls1 ?_
      exact (List.perm_append_singleton g G)
    · intro a ha
      simp at ha
      rcases ha with ha | ha
      · exact h4 a (by simp [ha])
      · exact h4 a (by simp [ha])

/-- The recursion of `quickSortRecursion` ends on a range of at most one entry. -/
theorem quickSortRecursion_done (arr : List Task) (low high : Int) (h : ¬ low < high) :
    quickSortRecursion arr low high = some arr := by
  rw [quickSortRecursion]; simp [h]

/-- One unfolding of `quickSortRecursion` on a longer range. -/
theorem quickSortRecursion_step (arr : List Task) (low high : Int) (h : low < high) :
    quickSortRecursion arr low high =
      match partition arr low high with
      | none => none
      | some (arr1, piv) =>
        match quickSortRecursion arr1 low (piv - 1) with
        | none => none
        | some arr2 => quickSortRecursion arr2 (piv + 1) high := by
  rw [quickSortRecursion]; simp only [h, dite_true]
  split
  · rename_i h1; simp [h1]
  · rename_i a1 p1 h1; simp only [h1]

/-- The contract of `quickSortRecursion` on the range `mid` between `pre` and `post`:
it returns, and the range is replaced by a sorted permutation of it. -/
theorem quickSortRecursion_spec : ∀ (n : Nat) (pre mid post : List Task) (low high : Int),
    mid.length = n → low = (pre.length : Int) → high = (pre.length : Int) + mid.length - 1 →
    ∃ S, quickSortRecursion (pre ++ (mid ++ post)) low high = some (pre ++ (S ++ post))
      ∧ S.Perm mid ∧ S.Pairwise (fun a b => a.priority ≤ b.priority) := by
  intro n
  induction n using Nat.strong_induction_on with
  | _ n ih =>
    intro pre mid post low high hn hl hh
    by_cases hlt : low < high
    · have hne : mid ≠ [] := by
        intro h0; subst h0; simp at hh; omega
      obtain ⟨m, pvt, rfl⟩ : ∃ m pvt, mid = m ++ [pvt] :=
        ⟨mid.dropLast, mid.getLast hne, (List.dropLast_append_getLast hne).symm⟩
      obtain ⟨L, R, hp, hperm, hL, hR⟩ := partition_spec pre m pvt post low high hl
        (by simp at hh; omega)
      have hlen : L.length + R.length = m.length := by
        have := hperm.length_eq; simpa using this
      have hmn : m.length + 1 = n := by simpa using hn
      obtain ⟨SL, hq1, hp1, hs1⟩ := ih L.length (by omega) pre L (pvt :: (R ++ post)) low
        ((pre.length : Int) + L.length - 1) rfl hl rfl
      have hSL : SL.length = L.length := hp1.length_eq
      obtain ⟨SR, hq2, hp2, hs2⟩ := ih R.length (by omega) (pre ++ (SL ++ [pvt])) R post
        ((pre.length : Int) + L.length + 1) high rfl
        (by simp [hSL]; ring) (by simp [hSL] at hh ⊢; omega)
      refine ⟨SL ++ pvt :: SR, ?_, ?_, ?_⟩
      · rw [quickSortRecursion_step _ _ _ hlt]
        have e0 : pre ++ (m ++ [pvt] ++ post) = pre ++ (m ++ pvt :: post) := by simp
        rw [e0, hp]
        simp only [hq1]
        have e1 : pre ++ (SL ++ pvt :: (R ++ post)) = (pre ++ (SL ++ [pvt])) ++ (R ++ post) := by
          simp
        rw [e1, hq2]
        simp
      · have : (SL ++ pvt :: SR).Perm (L ++ pvt :: R) :=
          List.Perm.append hp1 (List.Perm.cons pvt hp2)
        refine this.trans ?_
        have a1 : (L ++ pvt :: R).Perm (pvt :: (L ++ R)) := List.perm_middle
        have a2 : (m ++ [pvt]).Perm (pvt :: m) := List.perm_append_singleton pvt m
        exact (a1.trans (List.Perm.cons pvt hperm)).trans a2.symm
      · rw [List.pairwise_append]
        refine ⟨hs1, ?_, ?_⟩
        · rw [List.pairwise_cons]
          exact ⟨fun b hb => hR b (hp2.subset hb), hs2⟩
        · intro a ha b hb
          have h1 : a.priority < pvt.priority := hL a (hp1.subset ha)
          simp at hb
          rcases hb with hb | hb
          · subst hb; exact le_of_lt h1
          · exact le_trans (le_of_lt h1) (hR b (hp2.subset hb))
    · refine ⟨mid, ?_, List.Perm.refl _, ?_⟩
      · rw [quickSortRecursion_done _ _ _ hlt]
      · have hle : mid.length ≤ 1 := by omega
        match mid, hle with
        | [], _ => simp
        | [a], _ => simp

/-- Reading inside the prefix `S`. -/
theorem readAt_append_left (S post : List Task) (i : Nat) (h : i < S.length) :
    readAt (S ++ post) (i : Int) = some (S[i]) := by
  simp [readAt, List.getElem?_append_left h, List.getElem?_eq_getElem h]

/-! ## Lemmas on `deleteTask` -/

/-- The call `strcmp` returns 0 exactly on equal strings. -/
theorem strcmp_eq_zero (a b : List Char) : strcmp a b = 0 ↔ a = b := by
  unfold strcmp
  by_cases h : a = b
  · simp [h]
  · simp only [h, if_false]
    split <;> simp

/-- An integer in the `int` range is not changed by the reduction. -/
theorem wrapInt_id (x : Int) (h0 : -2147483648 ≤ x) (h1 : x < 2147483648) : wrapInt x = x := by
  unfold wrapInt; omega

/-- The shift loop ends when `j` reaches `count - 1`. -/
theorem shiftLoop_done (count : Int) (tasks : List Task) (j : Int) (h : ¬ j < count - 1) :
    shiftLoop count tasks j = some tasks := by
  rw [shiftLoop]; simp [h]

/-- One iteration of the shift loop. -/
theorem shiftLoop_step (count : Int) (tasks : List Task) (j : Int) (h : j < count - 1) :
    shiftLoop count tasks j =
      match readAt tasks (j + 1) with
      | none => none
      | some t =>
        match writeAt tasks j t with
        | none => none
        | some tasks1 => shiftLoop count tasks1 (j + 1) := by
  rw [shiftLoop]; simp only [h, if_true]

/-- The scan of `deleteTask` ends when `i` reaches count. -/
theorem deleteLoop_done (td : todoList) (name : List Char) (i : Int) (h : ¬ i < td.count) :
    deleteLoop td name i = some (1, td) := by
  rw [deleteLoop]; simp [h]

/-- One iteration of the scan of `deleteTask`. -/
theorem deleteLoop_step (td : todoList) (name : List Char) (i : Int) (h : i < td.count) :
    deleteLoop td name i =
      match readAt td.tasks i with
      | none => none
      | some t =>
        if strcmp t.name name = 0 then
          match shiftLoop td.count td.tasks i with
          | none => none
          | some ts => some (0, { td with tasks := ts, count := wrapInt (td.count - 1) })
        else deleteLoop td name (i + 1) := by
  rw [deleteLoop]; simp only [h, if_true]

/-- The shift loop started at the slot of `x` moves the entries `B` after it
one slot to the left; the slot after them keeps its old content `z`. -/
theorem shiftLoop_spec (D : List Task) : ∀ (B A : List Task) (x : Task) (count j : Int),
    j = (A.length : Int) → count = (A.length : Int) + 1 + B.length →
    ∃ z, shiftLoop count (A ++ x :: (B ++ D)) j = some (A ++ (B ++ z :: D)) := by
  intro B
  induction B with
  | nil =>
    intro A x count j hj hc
    refine ⟨x, ?_⟩
    rw [shiftLoop_done _ _ _ (by simp at hc; omega)]
    simp
  | cons b B ih =>
    intro A x count j hj hc
    have hlt : j < count - 1 := by simp at hc; omega
    have hr : readAt (A ++ x :: (b :: B ++ D)) (j + 1) = some b := by
      have e : A ++ x :: (b :: B ++ D) = (A ++ [x]) ++ b :: (B ++ D) := by simp
      rw [e]; exact readAt_append_cons _ b _ _ (by simp [hj])
    have hw : writeAt (A ++ x :: (b :: B ++ D)) j b = some (A ++ b :: (b :: B ++ D)) :=
      writeAt_append_cons A x b _ j hj
    obtain ⟨z, hz⟩ := ih (A ++ [b]) b count (j + 1) (by simp [hj])
      (by simp at hc ⊢; omega)
    refine ⟨z, ?_⟩
    rw [shiftLoop_step _ _ _ hlt, hr]
    simp only [hw]
    have e : A ++ b :: (b :: B ++ D) = (A ++ [b]) ++ b :: (B ++ D) := by simp
    rw [e, hz]
    simp

/-- The scan of `deleteTask` over a prefix `A2` without the name, followed by an
entry `x` with the name. -/
theorem deleteLoop_found (td : todoList) (name : List Char) (x : Task) (B D : List Task)
    (hx : x.name = name) : ∀ (A2 A1 : List Task) (i : Int),
    td.tasks = A1 ++ (A2 ++ x :: (B ++ D)) →
    td.count = (A1.length : Int) + A2.length + 1 + B.length →
    i = (A1.length : Int) → (∀ t ∈ A2, t.name ≠ name) →
    ∃ z, deleteLoop td name i
      = some (0, { td with tasks := A1 ++ (A2 ++ (B ++ z :: D)),
                           count := wrapInt (td.count - 1) }) := by
  intro A2
  induction A2 with
  | nil =>
    intro A1 i ht hc hi hA
    have hlt : i < td.count := by simp at hc; omega
    have hr : readAt td.tasks i = some x := by
      rw [ht]; exact readAt_append_cons A1 x _ i hi
    obtain ⟨z, hz⟩ := shiftLoop_spec D B A1 x td.count i hi (by simp at hc; omega)
    refine ⟨z, ?_⟩
    rw [deleteLoop_step _ _ _ hlt, hr]
    simp only [(strcmp_eq_zero _ _).mpr hx, if_true]
    rw [ht]
    simp only [List.nil_append] at hz ⊢
    rw [hz]
  | cons a A2 ih =>
    intro A1 i ht hc hi hA
    have hlt : i < td.count := by simp at hc; omega
    have hr : readAt td.tasks i = some a := by
      rw [ht]; exact readAt_append_cons A1 a _ i hi
    have hne : ¬ strcmp a.name name = 0 := by
      rw [strcmp_eq_zero]; exact hA a (by simp)
    obtain ⟨z, hz⟩ := ih (A1 ++ [a]) (i + 1) (by rw [ht]; simp)
      (by simp at hc ⊢; omega) (by simp [hi])
      (fun t ht => hA t (by simp [ht]))
    refine ⟨z, ?_⟩
    rw [deleteLoop_step _ _ _ hlt, hr]
    simp only [hne, if_false]
    rw [hz]
    simp

/-- The scan of `deleteTask` when no entry from `i` on has the name. -/
theorem deleteLoop_absent (td : todoList) (name : List Char) (D : List Task) :
    ∀ (A2 A1 : List Task) (i : Int),
    td.tasks = A1 ++ (A2 ++ D) → td.count = (A1.length : Int) + A2.length →
    i = (A1.length : Int) → (∀ t ∈ A2, t.name ≠ name) →
    deleteLoop td name i = some (1, td) := by
  intro A2
  induction A2 with
  | nil =>
    intro A1 i ht hc hi hA
    exact deleteLoop_done _ _ _ (by simp at hc; omega)
  | cons a A2 ih =>
    intro A1 i ht hc hi hA
    have hlt : i < td.count := by simp at hc; omega
    have hr : readAt td.tasks i = some a := by
      rw [ht]; exact readAt_append_cons A1 a _ i hi
    have hne : ¬ strcmp a.name name = 0 := by
      rw [strcmp_eq_zero]; exact hA a (by simp)
    rw [deleteLoop_step _ _ _ hlt, hr]
    simp only [hne, if_false]
    exact ih (A1 ++ [a]) (i + 1) (by rw [ht]; simp) (by simp at hc ⊢; omega) (by simp [hi])
      (fun t ht => hA t (by simp [ht]))

/-- A list with an entry of the given name splits at the first such entry. -/
theorem exists_first_match (name : List Char) : ∀ (l : List Task),
    (∃ t ∈ l, t.name = name) →
    ∃ A x B, l = A ++ x :: B ∧ x.name = name ∧ ∀ t ∈ A, t.name ≠ name := by
  intro l
  induction l with
  | nil => intro h; simp at h
  | cons a l ih =>
    intro h
    by_cases ha : a.name = name
    · exact ⟨[], a, l, rfl, ha, by simp⟩
    · obtain ⟨t, ht, htn⟩ := h
      have : t ∈ l := by
        rcases List.mem_cons.mp ht with h1 | h1
        · subst h1; exact absurd htn ha
        · exact h1
      obtain ⟨A, x, B, h1, h2, h3⟩ := ih ⟨t, this, htn⟩
      refine ⟨a :: A, x, B, by simp [h1], h2, ?_⟩
      intro u hu
      rcases List.mem_cons.mp hu with h4 | h4
      · subst h4; exact ha
      · exact h3 u h4

/-- The buffer of a valid store: its entries, then the slots from count on. -/
theorem tasks_split (td : todoList) (hv : Valid td) :
    td.tasks = entries td ++ td.tasks.drop td.count.toNat
      ∧ ((entries td).length : Int) = td.count := by
  obtain ⟨h0, h1, h2, h3⟩ := hv
  refine ⟨by simp [entries], ?_⟩
  simp [entries]
  omega

/-! ## Lemmas on `capacityCheck` and `addTask` -/


/-- The byte count of a non-negative `int` number of slots. -/
theorem allocBytes_of_nonneg (n : Int) (h0 : 0 ≤ n) (h1 : n < 2147483648) :
    allocBytes n = sizeofTask * n.toNat := by
  unfold allocBytes sizeofTask
  have e : ((108 : Nat) : Int) * n % 18446744073709551616 = 108 * n :=
    Int.emod_eq_of_lt (by omega) (by omega)
  rw [e]; omega

/-- The byte count of a negative `int` exceeds what an allocation can satisfy. -/
theorem allocBytes_of_neg (n : Int) (h0 : -2147483648 ≤ n) (h1 : n < 0) :
    allocMax < allocBytes n := by
  unfold allocBytes sizeofTask allocMax
  have e : ((108 : Nat) : Int) * n % 18446744073709551616 = 108 * n + 18446744073709551616 := by
    have h2 := Int.add_mul_emod_self (a := 108 * n) (b := 1) (c := 18446744073709551616)
    have h3 : (108 * n + 1 * 18446744073709551616) % 18446744073709551616
        = 108 * n + 1 * 18446744073709551616 := Int.emod_eq_of_lt (by omega) (by omega)
    have h4 : ((108 : Nat) : Int) = 108 := rfl
    rw [h4, ← h2, h3]; ring
  rw [e]; omega

/-- The call `realloc` with its condition as a proposition. -/
theorem realloc_eq (ok : Bool) (buf : List Task) (bytes : Nat) :
    realloc ok buf bytes =
      if ok = true ∧ bytes ≤ allocMax then
        some (buf.take (bytes / sizeofTask)
          ++ List.replicate (bytes / sizeofTask - buf.length) uninitTask)
      else none := by
  unfold realloc
  by_cases h1 : ok = true <;> by_cases h2 : bytes ≤ allocMax <;> simp [h1, h2]

/-- A `realloc` for the doubled capacity succeeds only when the allocator has
the memory and the doubled capacity is still an `int`. -/
theorem realloc_double (ok : Bool) (buf : List Task) (c : Int) (h0 : 0 ≤ c)
    (h1 : c < 2147483648) :
    realloc ok buf (allocBytes (wrapInt (c * 2))) =
      if ok = true ∧ c * 2 < 2147483648 then
        some (buf.take (c * 2).toNat
          ++ List.replicate ((c * 2).toNat - buf.length) uninitTask)
      else none := by
  rw [realloc_eq]
  by_cases hlt : c * 2 < 2147483648
  · have hw : wrapInt (c * 2) = c * 2 := wrapInt_id _ (by omega) hlt
    have hb := allocBytes_of_nonneg (c * 2) (by omega) hlt
    rw [hw, hb]
    have hd : sizeofTask * (c * 2).toNat / sizeofTask = (c * 2).toNat :=
      Nat.mul_div_cancel_left _ (by decide)
    have hm : sizeofTask * (c * 2).toNat ≤ allocMax := by
      unfold sizeofTask allocMax; omega
    simp only [hd, hm, hlt, and_true]
  · have hw : wrapInt (c * 2) = c * 2 - 4294967296 := by
      unfold wrapInt; omega
    have hb := allocBytes_of_neg (c * 2 - 4294967296) (by omega) (by omega)
    rw [hw]
    have hm : ¬ allocBytes (c * 2 - 4294967296) ≤ allocMax := by omega
    simp only [hm, hlt, and_false, if_false]

/-- What `capacityCheck` does on a valid store. -/
theorem capacityCheck_eq (ok : Bool) (td : todoList) (hv : Valid td) :
    capacityCheck ok td =
      if td.count < td.capacity then (0, td)
      else if ok = true ∧ td.capacity * 2 < 2147483648 then
        (0, { td with tasks := td.tasks ++ List.replicate td.capacity.toNat uninitTask,
                      capacity := td.capacity * 2 })
      else (1, td) := by
  obtain ⟨h0, h1, h2, h3⟩ := hv
  unfold capacityCheck
  by_cases hc : td.count < td.capacity
  · have : ¬ td.count ≥ td.capacity := by omega
    simp only [this, hc, if_true, if_false]
  · have hge : td.count ≥ td.capacity := by omega
    simp only [hge, hc, if_true, if_false]
    rw [realloc_double ok td.tasks td.capacity (by omega) h3]
    by_cases hk : ok = true ∧ td.capacity * 2 < 2147483648
    · simp only [hk, and_self, if_true]
      have hw : wrapInt (td.capacity * 2) = td.capacity * 2 :=
        wrapInt_id _ (by omega) hk.2
      have e1 : td.tasks.take (td.capacity * 2).toNat = td.tasks :=
        List.take_of_length_le (by omega)
      have e2 : (td.capacity * 2).toNat - td.tasks.length = td.capacity.toNat := by omega
      rw [hw, e1, e2]
    · simp only [hk, if_false]

/-- Writing the slot at index `count` inside the buffer extends the first `count`
slots by the written value. -/
theorem writeAt_count (tasks : List Task) (count : Int) (x : Task) (h0 : 0 ≤ count)
    (h1 : count < (tasks.length : Int)) :
    ∃ ts, writeAt tasks count x = some ts ∧ ts.length = tasks.length
      ∧ ts.take (count + 1).toNat = tasks.take count.toNat ++ [x] := by
  have hlt : count.toNat < tasks.length := by omega
  have hsplit : tasks
      = tasks.take count.toNat ++ tasks[count.toNat] :: tasks.drop (count.toNat + 1) := by
    rw [← List.drop_eq_getElem_cons hlt, List.take_append_drop]
  have hlen : ((tasks.take count.toNat).length : Int) = count := by
    simp [List.length_take]; omega
  refine ⟨tasks.take count.toNat ++ x :: tasks.drop (count.toNat + 1), ?_, ?_, ?_⟩
  · conv_lhs => rw [hsplit]
    exact writeAt_append_cons _ _ x _ count hlen.symm
  · have := congrArg List.length hsplit
    simp only [List.length_append, List.length_cons] at this ⊢
    omega
  · have e : (count + 1).toNat = (tasks.take count.toNat ++ [x]).length := by
      simp [List.length_take]; omega
    have e2 : tasks.take count.toNat ++ x :: tasks.drop (count.toNat + 1)
        = (tasks.take count.toNat ++ [x]) ++ tasks.drop (count.toNat + 1) := by simp
    rw [e2, e, List.take_left]

/-- After a successful `capacityCheck` on a valid store with at least one
slot, the slot at index count exists, and writing it appends an entry. -/
theorem writeAt_after_check (ok : Bool) (td : todoList) (x : Task)
    (hv : Valid td) (hpos : 0 < td.capacity) (hg : (capacityCheck ok td).1 = 0) :
    ∃ ts, writeAt (capacityCheck ok td).2.tasks (capacityCheck ok td).2.count x = some ts
      ∧ Valid { (capacityCheck ok td).2 with tasks := ts, count := td.count + 1 }
      ∧ wrapInt ((capacityCheck ok td).2.count + 1) = td.count + 1
      ∧ ts.take (td.count + 1).toNat = entries td ++ [x] := by
  have hv2 := hv
  obtain ⟨h0, h1, h2, h3⟩ := hv
  have hcc := capacityCheck_eq ok td hv2
  have key : ∀ td', capacityCheck ok td = (0, td') → Valid td' → td'.count = td.count →
      td'.count < td'.capacity → td'.tasks.take td.count.toNat = td.tasks.take td.count.toNat →
      ∃ ts, writeAt (capacityCheck ok td).2.tasks (capacityCheck ok td).2.count x = some ts
        ∧ Valid { (capacityCheck ok td).2 with tasks := ts, count := td.count + 1 }
        ∧ wrapInt ((capacityCheck ok td).2.count + 1) = td.count + 1
        ∧ ts.take (td.count + 1).toNat = entries td ++ [x] := by
    intro td' hcap hv' hcnt hlt htake
    obtain ⟨g0, g1, g2, g3⟩ := hv'
    obtain ⟨ts, hw, hlen, htk⟩ := writeAt_count td'.tasks td'.count x g0 (by omega)
    rw [hcap]
    refine ⟨ts, hw, ?_, ?_, ?_⟩
    · exact ⟨by simp; omega, by simp; omega, by simp [hlen]; omega, g3⟩
    · simp only [hcnt]
      exact wrapInt_id _ (by omega) (by omega)
    · rw [← hcnt, htk, hcnt, htake]; rfl
  by_cases hc : td.count < td.capacity
  · rw [if_pos hc] at hcc
    exact key td hcc hv2 rfl hc rfl
  · rw [if_neg hc] at hcc
    by_cases hk : ok = true ∧ td.capacity * 2 < 2147483648
    · rw [if_pos hk] at hcc
      have hv1 : Valid { td with tasks := td.tasks ++ List.replicate td.capacity.toNat uninitTask,
                                 capacity := td.capacity * 2 } := by
        refine ⟨h0, ?_, ?_, hk.2⟩
        · show td.count ≤ td.capacity * 2
          omega
        · show ((td.tasks ++ List.replicate td.capacity.toNat uninitTask).length : Int)
            = td.capacity * 2
          simp only [List.length_append, List.length_replicate]
          push_cast
          omega
      refine key _ hcc hv1 rfl ?_ ?_
      · show td.count < td.capacity * 2
        omega
      · show List.take td.count.toNat (td.tasks ++ List.replicate td.capacity.toNat uninitTask)
          = List.take td.count.toNat td.tasks
        rw [List.take_append_of_le_length (by omega)]
    · rw [if_neg hk] at hcc
      rw [hcc] at hg
      simp at hg

/-- What `addTask` does on a valid store with at least one slot when
`capacityCheck` reports success. -/
theorem addTask_spec (ok : Bool) (td : todoList) (name : List Char) (priority : Int)
    (hv : Valid td) (hpos : 0 < td.capacity) (hg : (capacityCheck ok td).1 = 0) :
    ∃ td1, addTask ok td name priority = some td1 ∧ Valid td1 ∧ td1.count = td.count + 1
      ∧ td1.capacity = (capacityCheck ok td).2.capacity
      ∧ entries td1 = entries td ++ [initializeTask name priority 0] := by
  obtain ⟨ts, hw, hv1, hwr, htk⟩ :=
    writeAt_after_check ok td (initializeTask name priority 0) hv hpos hg
  refine ⟨_, ?_, hv1, rfl, rfl, htk⟩
  unfold addTask
  have hcc : capacityCheck ok td = (0, (capacityCheck ok td).2) := Prod.ext hg rfl
  rw [hcc]
  simp only [ne_eq, not_true_eq_false, if_false, hw, hwr]

/-- The rewriting done by the command loop leaves no comma. -/
theorem replaceCommas_no_comma (name : List Char) : ',' ∉ replaceCommas name := by
  unfold replaceCommas
  intro h
  rw [List.mem_map] at h
  obtain ⟨c, _, hc⟩ := h
  by_cases h1 : c = ','
  · simp [h1] at hc
  · simp [h1] at hc

/-- The invariant of a run of adds from a valid store whose capacity is
`10 * 2 ^ k`, the least such capacity above its count. -/
theorem addTasks_growth : ∀ (items : List (Bool × List Char × Int)) (td : todoList) (k : Nat),
    Valid td → td.capacity = 10 * 2 ^ k → (∀ j, j < k → (10 * 2 ^ j : Int) < td.count) →
    growthSucceeds td items = true →
    ∃ td1 k1, addTasks td items = some td1 ∧ td1.count = td.count + items.length
      ∧ Valid td1 ∧ td1.capacity = 10 * 2 ^ k1
      ∧ (∀ j, j < k1 → (10 * 2 ^ j : Int) < td1.count) := by
  intro items
  induction items with
  | nil =>
    intro td k hv hc hm _
    exact ⟨td, k, rfl, by simp, hv, hc, hm⟩
  | cons it rest ih =>
    intro td k hv hc hm hg
    obtain ⟨ok, name, priority⟩ := it
    have hpos : 0 < td.capacity := by rw [hc]; positivity
    simp only [growthSucceeds, Bool.and_eq_true, decide_eq_true_eq] at hg
    obtain ⟨hg1, hg2⟩ := hg
    obtain ⟨td1, h1, h2, h3, h4, _⟩ := addTask_spec ok td name priority hv hpos hg1
    rw [h1] at hg2
    simp only at hg2
    have hcc := capacityCheck_eq ok td hv
    have hstep : ∃ k1, td1.capacity = 10 * 2 ^ k1
        ∧ (∀ j, j < k1 → (10 * 2 ^ j : Int) < td1.count) := by
      by_cases hlt : td.count < td.capacity
      · rw [if_pos hlt] at hcc
        rw [hcc] at h4
        refine ⟨k, by rw [h4, hc], ?_⟩
        intro j hj
        have := hm j hj
        omega
      · rw [if_neg hlt] at hcc
        by_cases hk : ok = true ∧ td.capacity * 2 < 2147483648
        · rw [if_pos hk] at hcc
          rw [hcc] at h4
          refine ⟨k + 1, ?_, ?_⟩
          · rw [h4]
            show td.capacity * 2 = 10 * 2 ^ (k + 1)
            rw [hc]; ring
          · intro j hj
            obtain ⟨g0, g1, _, _⟩ := hv
            rcases Nat.lt_succ_iff_lt_or_eq.mp hj with hj1 | hj1
            · have := hm j hj1
              omega
            · subst hj1
              rw [h3, ← hc]
              omega
        · rw [if_neg hk] at hcc
          rw [hcc] at hg1
          simp at hg1
    obtain ⟨k1, hk1, hk2⟩ := hstep
    obtain ⟨td2, k2, e1, e2, e3, e4, e5⟩ := ih td1 k1 h2 hk1 hk2 hg2
    refine ⟨td2, k2, ?_, ?_, e3, e4, e5⟩
    · simp only [addTasks, h1]
      exact e1
    · rw [e2, h3]
      simp only [List.length_cons]
      push_cast
      ring

/-! ## Lemmas on the number format and on `atoi` -/

/-- The digits are put in front of the accumulator. -/
theorem toDigitsCore_append : ∀ (fuel n : Nat) (ds : List Char),
    Nat.toDigitsCore 10 fuel n ds = Nat.toDigitsCore 10 fuel n [] ++ ds := by
  intro fuel
  induction fuel with
  | zero => intro n ds; simp [Nat.toDigitsCore]
  | succ f ih =>
    intro n ds
    simp only [Nat.toDigitsCore]
    split
    · simp
    · rw [ih (n / 10) (Nat.digitChar (n % 10) :: ds), ih (n / 10) [Nat.digitChar (n % 10)]]
      simp

/-- The digits do not depend on the fuel once it exceeds the number. -/
theorem toDigitsCore_fuel : ∀ (f1 f2 n : Nat), n < f1 → n < f2 →
    Nat.toDigitsCore 10 f1 n [] = Nat.toDigitsCore 10 f2 n [] := by
  intro f1
  induction f1 with
  | zero => intro f2 n h; omega
  | succ f ih =>
    intro f2 n h1 h2
    cases f2 with
    | zero => omega
    | succ g =>
      simp only [Nat.toDigitsCore]
      split
      · rfl
      · rename_i hne
        have hn : n / 10 < n := Nat.div_lt_self (by omega) (by decide)
        rw [toDigitsCore_append f, toDigitsCore_append g,
          ih g (n / 10) (by omega) (by omega)]

/-- A number below 10 is written as one digit. -/
theorem toDigits_lt (n : Nat) (h : n < 10) : Nat.toDigits 10 n = [Nat.digitChar n] := by
  unfold Nat.toDigits
  simp only [Nat.toDigitsCore]
  have h1 : n / 10 = 0 := Nat.div_eq_of_lt h
  have h2 : n % 10 = n := Nat.mod_eq_of_lt h
  simp [h1, h2]

/-- A number from 10 on is written as its tenth followed by its last digit. -/
theorem toDigits_ge (n : Nat) (h : 10 ≤ n) :
    Nat.toDigits 10 n = Nat.toDigits 10 (n / 10) ++ [Nat.digitChar (n % 10)] := by
  have h1 : n / 10 ≠ 0 := by omega
  have hn : n / 10 < n := Nat.div_lt_self (by omega) (by decide)
  have e : Nat.toDigitsCore 10 (n + 1) n []
      = Nat.toDigitsCore 10 n (n / 10) [Nat.digitChar (n % 10)] := by
    simp only [Nat.toDigitsCore, h1, if_false]
  unfold Nat.toDigits
  rw [e, toDigitsCore_append, toDigitsCore_fuel n (n / 10 + 1) (n / 10) hn (by omega)]

/-- The character of a digit is a decimal digit with that value. -/
theorem digitChar_isDigit (d : Nat) (h : d < 10) :
    (Nat.digitChar d).isDigit = true ∧ (Nat.digitChar d).toNat - 48 = d := by
  interval_cases d <;> decide

/-- Reading digits, then going on with what follows them. -/
theorem digitsValue_append : ∀ (l tl : List Char) (acc : Nat),
    (∀ c ∈ l, c.isDigit = true) →
    digitsValue acc (l ++ tl) = digitsValue (digitsValue acc l) tl := by
  intro l
  induction l with
  | nil => intro tl acc _; simp [digitsValue]
  | cons c l ih =>
    intro tl acc h
    have hc : c.isDigit = true := h c (by simp)
    simp only [List.cons_append, digitsValue, hc, if_true]
    exact ih tl _ (fun d hd => h d (by simp [hd]))

/-- The decimal text of a number: digits only, at least one, read back as the number. -/
theorem toDigits_spec : ∀ (n : Nat),
    (∀ c ∈ Nat.toDigits 10 n, c.isDigit = true) ∧ Nat.toDigits 10 n ≠ []
      ∧ ∀ acc, digitsValue acc (Nat.toDigits 10 n)
          = acc * 10 ^ (Nat.toDigits 10 n).length + n := by
  intro n
  induction n using Nat.strong_induction_on with
  | _ n ih =>
    by_cases h : n < 10
    · rw [toDigits_lt n h]
      obtain ⟨d1, d2⟩ := digitChar_isDigit n h
      refine ⟨by simp [d1], by simp, ?_⟩
      intro acc
      simp [digitsValue, d1, d2]
    · have hn : n / 10 < n := Nat.div_lt_self (by omega) (by decide)
      obtain ⟨i1, i2, i3⟩ := ih (n / 10) hn
      obtain ⟨d1, d2⟩ := digitChar_isDigit (n % 10) (Nat.mod_lt _ (by decide))
      rw [toDigits_ge n (by omega)]
      refine ⟨?_, by simp, ?_⟩
      · intro c hc
        rcases List.mem_append.mp hc with hc | hc
        · exact i1 c hc
        · simp at hc; rw [hc]; exact d1
      · intro acc
        rw [digitsValue_append _ _ _ i1, i3]
        simp only [digitsValue, d1, if_true, d2, List.length_append, List.length_singleton]
        have := Nat.div_add_mod n 10
        rw [pow_succ]
        nlinarith [this]

/-- A decimal digit is not white space, a sign, a comma, a newline or NUL. -/
theorem isDigit_not_special (c : Char) (h : c.isDigit = true) :
    isspace c = false ∧ c ≠ '-' ∧ c ≠ '+' ∧ c ≠ ',' ∧ c ≠ '\n' ∧ c ≠ Char.ofNat 0 := by
  refine ⟨?_, ?_, ?_, ?_, ?_, ?_⟩
  · by_contra hs
    simp only [isspace, Bool.not_eq_false, Bool.or_eq_true, decide_eq_true_eq] at hs
    rcases hs with ((((hs | hs) | hs) | hs) | hs) | hs <;> (subst hs; revert h; decide)
  all_goals (intro hc; subst hc; revert h; decide)

/-- The call `strtol` reads back the decimal text of a number that fits in `long`. -/
theorem strtol_toDigits (n : Nat) (h : n ≤ 9223372036854775807) :
    strtol (Nat.toDigits 10 n) = n := by
  obtain ⟨h1, h2, h3⟩ := toDigits_spec n
  obtain ⟨c, r, hcr⟩ := List.exists_cons_of_ne_nil h2
  have hc : c.isDigit = true := h1 c (by rw [hcr]; simp)
  obtain ⟨s1, s2, s3, _⟩ := isDigit_not_special c hc
  have hv := h3 0
  rw [hcr] at hv ⊢
  unfold strtol
  have hd : List.dropWhile isspace (c :: r) = c :: r := by
    simp [List.dropWhile, s1]
  rw [hd]
  split
  · rename_i r1 heq
    simp only [List.cons.injEq] at heq
    exact absurd heq.1 s2
  · rename_i r1 heq
    simp only [List.cons.injEq] at heq
    exact absurd heq.1 s3
  · rw [hv]
    simp only [Nat.zero_mul, Nat.zero_add]
    omega

/-- The call `atoi` reads back what `%d` writes for an `int`. -/
theorem atoi_fmtInt (n : Int) (h0 : -2147483648 ≤ n) (h1 : n < 2147483648) :
    atoi (fmtInt n) = n := by
  unfold atoi fmtInt
  by_cases hn : n < 0
  · simp only [hn, if_true]
    obtain ⟨_, _, h3⟩ := toDigits_spec n.natAbs
    have hv := h3 0
    simp only [Nat.zero_mul, Nat.zero_add] at hv
    have hs : strtol ('-' :: Nat.toDigits 10 n.natAbs) = n := by
      unfold strtol
      have hd : List.dropWhile isspace ('-' :: Nat.toDigits 10 n.natAbs)
          = '-' :: Nat.toDigits 10 n.natAbs := by
        simp [List.dropWhile, isspace]
      rw [hd]
      simp only [hv]
      omega
    rw [hs]
    exact wrapInt_id n h0 h1
  · simp only [hn, if_false]
    rw [strtol_toDigits n.toNat (by omega)]
    have : ((n.toNat : Nat) : Int) = n := by omega
    rw [this]
    exact wrapInt_id n h0 h1

/-- What `%d` writes for an `int`: at least one and at most 11 characters, none of
them a comma, a newline or NUL. -/
theorem fmtInt_chars (n : Int) (h0 : -2147483648 ≤ n) (h1 : n < 2147483648) :
    fmtInt n ≠ [] ∧ (∀ c ∈ fmtInt n, c ≠ ',' ∧ c ≠ '\n' ∧ c ≠ Char.ofNat 0)
      ∧ (fmtInt n).length ≤ 11 := by
  have hlen : ∀ m : Nat, m < 10 ^ 10 → (Nat.toDigits 10 m).length ≤ 10 := fun m hm =>
    Nat.toDigitsCore_length 10 (by decide) (m + 1) m 10 hm (by decide)
  have hch : ∀ m : Nat, ∀ c ∈ Nat.toDigits 10 m, c ≠ ',' ∧ c ≠ '\n' ∧ c ≠ Char.ofNat 0 := by
    intro m c hc
    obtain ⟨_, _, _, s4, s5, s6⟩ := isDigit_not_special c ((toDigits_spec m).1 c hc)
    exact ⟨s4, s5, s6⟩
  unfold fmtInt
  by_cases hn : n < 0
  · simp only [hn, if_true]
    refine ⟨by simp, ?_, ?_⟩
    · intro c hc
      rcases List.mem_cons.mp hc with hc | hc
      · subst hc; decide
      · exact hch _ c hc
    · have := hlen n.natAbs (by omega)
      simp only [List.length_cons]
      omega
  · simp only [hn, if_false]
    refine ⟨(toDigits_spec _).2.1, hch _, ?_⟩
    have := hlen n.toNat (by omega)
    omega

/-! ## Lemmas on `saveTasks` and `loadTasks` -/

/-- One unfolding of the loop of `loadTasks`. -/
theorem loadLoop_step (ok : Nat → Bool) (td : todoList) (stream : List Char) :
    loadLoop ok td stream =
      match fgets 256 stream with
      | none => some (0, td)
      | some (buf, rest) =>
        match capacityCheck (ok 0) td with
        | (rc, td1) =>
          if rc ≠ 0 then some (1, td1)
          else
            let buffer := cstr buf
            let line := buffer.take (strcspn buffer ['\n'])
            let taskName := strtok line [',']
            let priority := strtok taskName.2 [',']
            let completion := strtok priority.2 [',']
            match taskName.1, priority.1, completion.1 with
            | some n, some p, some c =>
              match writeAt td1.tasks td1.count (initializeTask n (atoi p) (atoi c)) with
              | none => none
              | some ts =>
                loadLoop (fun k => ok (k + 1))
                  { td1 with tasks := ts, count := wrapInt (td1.count + 1) } rest
            | _, _, _ => some (0, td1) := by
  rw [loadLoop]
  split
  · rename_i h; simp [h]
  · rename_i b r h; simp only [h]

/-- The loop of `saveTasks` ends when `i` reaches count. -/
theorem saveLoop_done (td : todoList) (i : Int) (out : List Char) (h : ¬ i < td.count) :
    saveLoop td i out = some out := by
  rw [saveLoop]; simp [h]

/-- One iteration of the loop of `saveTasks`. -/
theorem saveLoop_step (td : todoList) (i : Int) (out : List Char) (h : i < td.count) :
    saveLoop td i out =
      match readAt td.tasks i with
      | none => none
      | some t => saveLoop td (i + 1) (out ++ fprintfTask t) := by
  rw [saveLoop]; simp only [h, if_true]

/-- The loop of `saveTasks` writes the lines of the entries from `i` on. -/
theorem saveLoop_spec (td : todoList) (D : List Task) : ∀ (A2 A1 : List Task) (i : Int)
    (out : List Char), td.tasks = A1 ++ (A2 ++ D) → td.count = (A1.length : Int) + A2.length →
    i = (A1.length : Int) → saveLoop td i out = some (out ++ linesOf A2) := by
  intro A2
  induction A2 with
  | nil =>
    intro A1 i out ht hc hi
    rw [saveLoop_done _ _ _ (by simp at hc; omega)]
    simp [linesOf]
  | cons a A2 ih =>
    intro A1 i out ht hc hi
    have hlt : i < td.count := by simp at hc; omega
    have hr : readAt td.tasks i = some a := by
      rw [ht]; exact readAt_append_cons A1 a _ i hi
    rw [saveLoop_step _ _ _ hlt, hr]
    simp only
    rw [ih (A1 ++ [a]) (i + 1) _ (by rw [ht]; simp) (by simp at hc ⊢; omega) (by simp [hi])]
    simp [linesOf]

/-- The text `saveTasks` writes for a valid store: the lines of its entries. -/
theorem saveTasks_eq (td : todoList) (hv : Valid td) :
    saveTasks true td = some (0, some (linesOf (entries td))) := by
  obtain ⟨hsplit, hlen⟩ := tasks_split td hv
  have := saveLoop_spec td (td.tasks.drop td.count.toNat) (entries td) [] 0 []
    (by simpa using hsplit) (by simp [hlen]) (by simp)
  unfold saveTasks
  simp [this]

/-- Reading stops right after the first newline when the line fits. -/
theorem readLine_line : ∀ (L : List Char) (k : Nat) (rest : List Char),
    '\n' ∉ L → L.length < k → readLine k (L ++ '\n' :: rest) = (L ++ ['\n'], rest) := by
  intro L
  induction L with
  | nil =>
    intro k rest _ hk
    obtain ⟨k1, rfl⟩ : ∃ k1, k = k1 + 1 := ⟨k - 1, by simp at hk; omega⟩
    simp [readLine]
  | cons c L ih =>
    intro k rest hn hk
    obtain ⟨k1, rfl⟩ : ∃ k1, k = k1 + 1 := ⟨k - 1, by simp at hk; omega⟩
    have hc : c ≠ '\n' := fun h => hn (by simp [h])
    have hL : '\n' ∉ L := fun h => hn (by simp [h])
    have e := ih k1 rest hL (by simp at hk; omega)
    show readLine (k1 + 1) (c :: (L ++ '\n' :: rest)) = _
    simp only [readLine, hc, if_false, e, List.cons_append]

/-- A buffer without NUL is the string it holds. -/
theorem cstr_of_no_nul (L : List Char) (h : Char.ofNat 0 ∉ L) : cstr L = L := by
  unfold cstr
  rw [List.takeWhile_eq_self_iff]
  intro c hc
  simp only [ne_eq, decide_not, Bool.not_eq_true', decide_eq_false_iff_not]
  intro h0; exact h (h0 ▸ hc)

/-- Scanning a prefix that satisfies `p` up to a character that does not. -/
theorem takeWhile_until (p : Char → Bool) : ∀ (L : List Char) (d : Char) (rest : List Char),
    (∀ c ∈ L, p c = true) → p d = false →
    (L ++ d :: rest).takeWhile p = L ∧ (L ++ d :: rest).dropWhile p = d :: rest := by
  intro L
  induction L with
  | nil => intro d rest _ hd; simp [List.takeWhile, List.dropWhile, hd]
  | cons c L ih =>
    intro d rest h hd
    have hc : p c = true := h c (by simp)
    obtain ⟨i1, i2⟩ := ih d rest (fun x hx => h x (by simp [hx])) hd
    simp [List.takeWhile, List.dropWhile, hc, i1, i2]

/-- Cutting a line at `strcspn(buffer, "\n")` removes its newline. -/
theorem strcspn_line (L : List Char) (h : '\n' ∉ L) :
    (L ++ ['\n']).take (strcspn (L ++ ['\n']) ['\n']) = L := by
  unfold strcspn
  have := (takeWhile_until (fun c => decide (c ∉ ['\n'])) L '\n' []
    (by intro c hc; simp; intro h0; exact h (h0 ▸ hc)) (by simp)).1
  rw [this]
  simp

/-- The call `strtok` on a non-empty comma-free field followed by a comma. -/
theorem strtok_field (tok rest : List Char) (h0 : tok ≠ []) (h1 : ',' ∉ tok) :
    strtok (tok ++ ',' :: rest) [','] = (some tok, rest) := by
  obtain ⟨c, r, rfl⟩ := List.exists_cons_of_ne_nil h0
  have hc : c ≠ ',' := fun h => h1 (by simp [h])
  have hall : ∀ x ∈ c :: r, decide (x ∉ [',']) = true := by
    intro x hx; simp; intro h; exact h1 (h ▸ hx)
  obtain ⟨t1, t2⟩ :=
    takeWhile_until (fun x => decide (x ∉ [','])) (c :: r) ',' rest hall (by simp)
  unfold strtok
  have hd : List.dropWhile (fun x => decide (x ∈ [','])) (c :: r ++ ',' :: rest)
      = c :: r ++ ',' :: rest := by
    simp [List.dropWhile, hc]
  rw [hd]
  simp only [List.cons_append] at t1 t2 ⊢
  rw [t1, t2]
  simp

/-- The call `strtok` on a non-empty comma-free field that ends the string. -/
theorem strtok_last (tok : List Char) (h0 : tok ≠ []) (h1 : ',' ∉ tok) :
    strtok tok [','] = (some tok, []) := by
  obtain ⟨c, r, rfl⟩ := List.exists_cons_of_ne_nil h0
  have hc : c ≠ ',' := fun h => h1 (by simp [h])
  have hall : ∀ x ∈ c :: r, decide (x ∉ [',']) = true := by
    intro x hx; simp; intro h; exact h1 (h ▸ hx)
  unfold strtok
  have hd : List.dropWhile (fun x => decide (x ∈ [','])) (c :: r) = c :: r := by
    simp [List.dropWhile, hc]
  rw [hd]
  simp only
  have t1 : List.takeWhile (fun x => decide (x ∉ [','])) (c :: r) = c :: r :=
    List.takeWhile_eq_self_iff.mpr hall
  have t2 : List.dropWhile (fun x => decide (x ∉ [','])) (c :: r) = [] :=
    List.dropWhile_eq_nil_iff.mpr hall
  rw [t1, t2]
  simp

/-- The call `fgets` on a line shorter than the buffer. -/
theorem fgets_line (L rest : List Char) (h1 : '\n' ∉ L) (h2 : L.length < 255) :
    fgets 256 (L ++ '\n' :: rest) = some (L ++ ['\n'], rest) := by
  have := readLine_line L 255 rest h1 h2
  cases L with
  | nil => simp only [fgets, List.nil_append] at this ⊢; rw [this]
  | cons c r => simp only [fgets, List.cons_append] at this ⊢; rw [this]

/-- One iteration of the loop of `loadTasks` on the line written for a storable
task, when `capacityCheck` reports success: the task is appended. -/
theorem loadLoop_line (ok : Nat → Bool) (td : todoList) (t : Task) (rest : List Char)
    (hv : Valid td) (hpos : 0 < td.capacity) (hg : (capacityCheck (ok 0) td).1 = 0)
    (ht : Storable t) :
    ∃ td1, loadLoop ok td (fprintfTask t ++ rest) = loadLoop (fun k => ok (k + 1)) td1 rest
      ∧ Valid td1 ∧ td1.count = td.count + 1
      ∧ td1.capacity = (capacityCheck (ok 0) td).2.capacity
      ∧ entries td1 = entries td ++ [t] := by
  obtain ⟨n0, n1, n2, n3, n4, ⟨p0, p1⟩, ⟨c0, c1⟩⟩ := ht
  obtain ⟨P0, P1, P2⟩ := fmtInt_chars t.priority p0 p1
  obtain ⟨C0, C1, C2⟩ := fmtInt_chars t.completed c0 c1
  obtain ⟨ts, hw, hv1, hwr, htk⟩ := writeAt_after_check (ok 0) td t hv hpos hg
  have hcc : capacityCheck (ok 0) td = (0, (capacityCheck (ok 0) td).2) := Prod.ext hg rfl
  -- the line without its newline
  have hstream : fprintfTask t ++ rest
      = (t.name ++ ',' :: (fmtInt t.priority ++ ',' :: fmtInt t.completed)) ++ '\n' :: rest := by
    simp [fprintfTask]
  have hmem : ∀ c ∈ t.name ++ ',' :: (fmtInt t.priority ++ ',' :: fmtInt t.completed),
      c ≠ '\n' ∧ c ≠ Char.ofNat 0 := by
    intro c hc
    simp only [List.mem_append, List.mem_cons] at hc
    rcases hc with hc | hc | hc | hc | hc
    · exact ⟨fun h => n2 (h ▸ hc), fun h => n3 (h ▸ hc)⟩
    · subst hc; decide
    · exact (P1 c hc).2
    · subst hc; decide
    · exact (C1 c hc).2
  have hnl : '\n' ∉ t.name ++ ',' :: (fmtInt t.priority ++ ',' :: fmtInt t.completed) :=
    fun h => (hmem _ h).1 rfl
  have hnul : Char.ofNat 0 ∉
      (t.name ++ ',' :: (fmtInt t.priority ++ ',' :: fmtInt t.completed)) ++ ['\n'] := by
    intro h
    rcases List.mem_append.mp h with h | h
    · exact (hmem _ h).2 rfl
    · simp at h
  have hlen :
      (t.name ++ ',' :: (fmtInt t.priority ++ ',' :: fmtInt t.completed)).length < 255 := by
    simp only [List.length_append, List.length_cons]
    omega
  have e1 := fgets_line _ rest hnl hlen
  have e2 := cstr_of_no_nul _ hnul
  have e3 := strcspn_line _ hnl
  have e4 := strtok_field t.name (fmtInt t.priority ++ ',' :: fmtInt t.completed) n0 n1
  have e5 := strtok_field (fmtInt t.priority) (fmtInt t.completed) P0 (fun h => (P1 _ h).1 rfl)
  have e6 := strtok_last (fmtInt t.completed) C0 (fun h => (C1 _ h).1 rfl)
  have e7 := atoi_fmtInt t.priority p0 p1
  have e8 := atoi_fmtInt t.completed c0 c1
  have e9 : initializeTask t.name t.priority t.completed = t := by
    unfold initializeTask strncpy
    rw [List.take_of_length_le n4]
  refine ⟨_, ?_, hv1, rfl, rfl, htk⟩
  rw [loadLoop_step, hstream, e1]
  simp only
  rw [hcc]
  simp only [ne_eq, not_true_eq_false, if_false, e2, e3, e4, e5, e6, e7, e8, e9, hw, hwr]

/-- The loop of `loadTasks` ends with code 0 at the end of the file. -/
theorem loadLoop_nil (ok : Nat → Bool) (td : todoList) : loadLoop ok td [] = some (0, td) := by
  rw [loadLoop_step]; simp [fgets]

/-- Loading saved lines with an allocator that never refuses, into a store of
capacity `10 * 2 ^ k`, when the final count is at most 1342177280: every line is
appended and the code is 0. -/
theorem loadLoop_lines : ∀ (ts : List Task) (td : todoList) (k : Nat) (ok : Nat → Bool),
    (∀ j, ok j = true) → Valid td → td.capacity = 10 * 2 ^ k →
    td.count + ts.length ≤ 1342177280 → (∀ t ∈ ts, Storable t) →
    ∃ td1, loadLoop ok td (linesOf ts) = some (0, td1) ∧ entries td1 = entries td ++ ts
      ∧ Valid td1 ∧ td1.count = td.count + ts.length := by
  intro ts
  induction ts with
  | nil =>
    intro td k ok _ hv _ _ _
    exact ⟨td, by simp [linesOf, loadLoop_nil], by simp, hv, by simp⟩
  | cons t ts ih =>
    intro td k ok hok hv hc hN hS
    have hpos : 0 < td.capacity := by rw [hc]; positivity
    have hcc := capacityCheck_eq (ok 0) td hv
    have hstep : (capacityCheck (ok 0) td).1 = 0
        ∧ ∃ k1, (capacityCheck (ok 0) td).2.capacity = 10 * 2 ^ k1 := by
      by_cases hlt : td.count < td.capacity
      · rw [if_pos hlt] at hcc
        rw [hcc]
        exact ⟨rfl, k, hc⟩
      · rw [if_neg hlt] at hcc
        have hk27 : k < 27 := by
          by_contra hge
          have h1 : (2 : Int) ^ 27 ≤ 2 ^ k := pow_le_pow_right₀ (by norm_num) (by omega)
          simp only [List.length_cons] at hN
          push_cast at hN
          omega
        have h2 : (2 : Int) ^ (k + 1) ≤ 2 ^ 27 := pow_le_pow_right₀ (by norm_num) (by omega)
        have hk : ok 0 = true ∧ td.capacity * 2 < 2147483648 := by
          refine ⟨hok 0, ?_⟩
          rw [hc]
          rw [pow_succ] at h2
          omega
        rw [if_pos hk] at hcc
        rw [hcc]
        refine ⟨rfl, k + 1, ?_⟩
        show td.capacity * 2 = 10 * 2 ^ (k + 1)
        rw [hc]; ring
    obtain ⟨hg, k1, hk1⟩ := hstep
    obtain ⟨td1, e1, e2, e3, e4, e5⟩ := loadLoop_line ok td t (linesOf ts) hv hpos hg
      (hS t (by simp))
    obtain ⟨td2, f1, f2, f3, f4⟩ := ih td1 k1 (fun j => ok (j + 1)) (fun j => hok (j + 1)) e2
      (by rw [e4, hk1]) (by rw [e3]; simp only [List.length_cons] at hN; push_cast at hN; omega)
      (fun u hu => hS u (by simp [hu]))
    refine ⟨td2, ?_, ?_, f3, ?_⟩
    · show loadLoop ok td (fprintfTask t ++ linesOf ts) = _
      rw [e1, f1]
    · rw [f2, e5]; simp
    · rw [f4, e3]; simp only [List.length_cons]; push_cast; ring

/-- Loading saved lines with any allocator: the loop ends with code 0 and all
lines appended, or with code 1 after a failed reallocation. -/
theorem loadLoop_lines_any : ∀ (ts : List Task) (td : todoList) (ok : Nat → Bool),
    Valid td → 0 < td.capacity → (∀ t ∈ ts, Storable t) →
    ∃ rc td1, loadLoop ok td (linesOf ts) = some (rc, td1) ∧ (rc = 0 ∨ rc = 1)
      ∧ (rc = 0 → entries td1 = entries td ++ ts) := by
  intro ts
  induction ts with
  | nil =>
    intro td ok hv _ _
    exact ⟨0, td, by simp [linesOf, loadLoop_nil], Or.inl rfl, by simp⟩
  | cons t ts ih =>
    intro td ok hv hpos hS
    by_cases hg : (capacityCheck (ok 0) td).1 = 0
    · obtain ⟨td1, e1, e2, e3, e4, e5⟩ := loadLoop_line ok td t (linesOf ts) hv hpos hg
        (hS t (by simp))
      have hpos1 : 0 < td1.capacity := by
        have hcc := capacityCheck_eq (ok 0) td hv
        rw [e4]
        by_cases hlt : td.count < td.capacity
        · rw [if_pos hlt] at hcc; rw [hcc]; exact hpos
        · rw [if_neg hlt] at hcc
          by_cases hk : ok 0 = true ∧ td.capacity * 2 < 2147483648
          · rw [if_pos hk] at hcc; rw [hcc]
            show 0 < td.capacity * 2
            omega
          · rw [if_neg hk] at hcc; rw [hcc]; exact hpos
      obtain ⟨rc, td2, f1, f2, f3⟩ := ih td1 (fun j => ok (j + 1)) e2 hpos1
        (fun u hu => hS u (by simp [hu]))
      refine ⟨rc, td2, ?_, f2, ?_⟩
      · show loadLoop ok td (fprintfTask t ++ linesOf ts) = _
        rw [e1, f1]
      · intro h; rw [f3 h, e5]; simp
    · refine ⟨1, (capacityCheck (ok 0) td).2, ?_, Or.inr rfl, by simp⟩
      obtain ⟨n0, n1, n2, n3, n4, ⟨p0, p1⟩, ⟨c0, c1⟩⟩ := hS t (by simp)
      have hne : ∃ c r, linesOf (t :: ts) = c :: r := by
        obtain ⟨c, r, hcr⟩ := List.exists_cons_of_ne_nil n0
        exact ⟨c, r ++ ([','] ++ fmtInt t.priority ++ [','] ++ fmtInt t.completed ++ ['\n']
          ++ linesOf ts), by simp [linesOf, fprintfTask, hcr]⟩
      obtain ⟨c, r, hcr⟩ := hne
      rw [loadLoop_step, hcr]
      simp only [fgets]
      have hcc : capacityCheck (ok 0) td
          = ((capacityCheck (ok 0) td).1, (capacityCheck (ok 0) td).2) := rfl
      rw [hcc]
      simp only [ne_eq, hg, not_false_eq_true, if_true]

/-! ## Lemmas on accesses inside a longer buffer -/

/-- Reading inside the middle part `M` of an array. -/
theorem readAt_middle (A M C : List Task) (i : Int) (h0 : (A.length : Int) ≤ i)
    (h1 : i < (A.length : Int) + M.length) :
    ∃ a, a ∈ M ∧ readAt (A ++ (M ++ C)) i = some a := by
  obtain ⟨k, rfl⟩ : ∃ k : Nat, i = (k : Int) := ⟨i.toNat, by omega⟩
  have hk : k - A.length < M.length := by omega
  refine ⟨M[k - A.length], List.getElem_mem _, ?_⟩
  have h : 0 ≤ (k : Int) := by omega
  simp only [readAt, h, if_true, Int.toNat_ofNat]
  rw [List.getElem?_append_right (by omega), List.getElem?_append_left hk,
    List.getElem?_eq_getElem hk]

/-- Reading in front of the part that differs. -/
theorem readAt_prefix (A X Y : List Task) (i : Int) (h : i < (A.length : Int)) :
    readAt (A ++ X) i = readAt (A ++ Y) i := by
  unfold readAt
  by_cases h0 : 0 ≤ i
  · simp only [h0, if_true]
    rw [List.getElem?_append_left (by omega), List.getElem?_append_left (by omega)]
  · simp only [h0, if_false]

/-- Reading behind the part that differs. -/
theorem readAt_suffix (X Y C : List Task) (i : Int) (hl : X.length = Y.length)
    (h : (X.length : Int) ≤ i) : readAt (X ++ C) i = readAt (Y ++ C) i := by
  unfold readAt
  have h0 : 0 ≤ i := by omega
  simp only [h0, if_true]
  rw [List.getElem?_append_right (by omega), List.getElem?_append_right (by omega), hl]

/-- A read that succeeds in a buffer gives the same value in a longer buffer. -/
theorem readAt_frame (B X : List Task) (i : Int) (a : Task) (h : readAt B i = some a) :
    readAt (B ++ X) i = some a := by
  unfold readAt at h ⊢
  by_cases h0 : 0 ≤ i
  · simp only [h0, if_true] at h ⊢
    have hlt : i.toNat < B.length := by
      by_contra hc
      rw [List.getElem?_eq_none (by omega)] at h
      simp at h
    rw [List.getElem?_append_left hlt]; exact h
  · simp [h0] at h

/-- A write that succeeds in a buffer does the same in a longer buffer. -/
theorem writeAt_frame (B X R : List Task) (i : Int) (t : Task) (h : writeAt B i t = some R) :
    writeAt (B ++ X) i t = some (R ++ X) := by
  unfold writeAt at h ⊢
  by_cases hc : 0 ≤ i ∧ i.toNat < B.length
  · simp only [hc, and_self, if_true, Option.some.injEq] at h
    have hc2 : 0 ≤ i ∧ i.toNat < (B ++ X).length := ⟨hc.1, by simp; omega⟩
    simp only [hc2, and_self, if_true, Option.some.injEq]
    rw [← h, List.set_append_left _ _ hc.2]
  · simp [hc] at h

/-- A swap that succeeds in a buffer does the same in a longer buffer. -/
theorem swap_frame (B X R : List Task) (a b : Int) (h : swap B a b = some R) :
    swap (B ++ X) a b = some (R ++ X) := by
  unfold swap at h ⊢
  cases ha : readAt B a with
  | none => simp [ha] at h
  | some va =>
    cases hb : readAt B b with
    | none => simp [ha, hb] at h
    | some vb =>
      simp only [ha, hb] at h
      cases hw : writeAt B a vb with
      | none => simp [hw] at h
      | some B1 =>
        simp only [hw] at h
        simp only [readAt_frame B X a va ha, readAt_frame B X b vb hb,
          writeAt_frame B X B1 a vb hw]
        exact writeAt_frame B1 X R b va h

/-- The loop of `partition`, when it stays inside a buffer, does the same in a
longer buffer. -/
theorem partitionLoop_frame (piv high : Int) (X : List Task) (B : List Task) (i j : Int)
    (R : List Task) (i1 : Int) (h : partitionLoop piv high B i j = some (R, i1)) :
    partitionLoop piv high (B ++ X) i j = some (R ++ X, i1) := by
  induction B, i, j using partitionLoop.induct piv high with
  | case1 arr i j hj hr =>
    rw [partitionLoop] at h; simp [hj, hr] at h
  | case2 arr i j hj aj hr hp hs =>
    rw [partitionLoop] at h; simp [hj, hr, hp, hs] at h
  | case3 arr i j hj aj hr hp arr2 hs ih =>
    rw [partitionLoop] at h; simp [hj, hr, hp, hs] at h
    rw [partitionLoop_step _ _ _ _ _ hj, readAt_frame _ X _ _ hr]
    simp only [hp, if_true, swap_frame _ X _ _ _ hs]
    exact ih h
  | case4 arr i j hj aj hr hp ih =>
    rw [partitionLoop] at h; simp [hj, hr, hp] at h
    rw [partitionLoop_step _ _ _ _ _ hj, readAt_frame _ X _ _ hr]
    simp only [hp, if_false]
    exact ih h
  | case5 arr i j hj =>
    rw [partitionLoop] at h; simp [hj] at h
    rw [partitionLoop_done _ _ _ _ _ hj]
    simp [h.1, h.2]

/-- The function `partition`, when it stays inside a buffer, does the same in
a longer buffer. -/
theorem partition_frame (X B : List Task) (low high : Int) (R : List Task) (p : Int)
    (h : partition B low high = some (R, p)) :
    partition (B ++ X) low high = some (R ++ X, p) := by
  unfold partition at h ⊢
  cases hr : readAt B high with
  | none => simp [hr] at h
  | some ph =>
    simp only [hr] at h
    cases hl : partitionLoop ph.priority high B (low - 1) low with
    | none => simp [hl] at h
    | some r1 =>
      obtain ⟨B1, i1⟩ := r1
      simp only [hl] at h
      cases hs : swap B1 (i1 + 1) high with
      | none => simp [hs] at h
      | some B2 =>
        simp only [hs, Option.some.injEq, Prod.mk.injEq] at h
        simp only [readAt_frame B X high ph hr,
          partitionLoop_frame ph.priority high X B (low - 1) low B1 i1 hl,
          swap_frame B1 X B2 (i1 + 1) high hs]
        rw [h.1, h.2]

/-- The function `quickSortRecursion`, when it stays inside a buffer, does the
same in a longer buffer. -/
theorem quickSortRecursion_frame (X : List Task) : ∀ (n : Nat) (B : List Task) (low high : Int)
    (R : List Task), (high - low).toNat = n → quickSortRecursion B low high = some R →
    quickSortRecursion (B ++ X) low high = some (R ++ X) := by
  intro n
  induction n using Nat.strong_induction_on with
  | _ n ih =>
    intro B low high R hn h
    by_cases hlt : low < high
    · rw [quickSortRecursion_step _ _ _ hlt] at h
      rw [quickSortRecursion_step _ _ _ hlt]
      cases hp : partition B low high with
      | none => simp [hp] at h
      | some r1 =>
        obtain ⟨B1, p⟩ := r1
        simp only [hp] at h
        have hb := partition_index B low high B1 p (le_of_lt hlt) hp
        cases hq : quickSortRecursion B1 low (p - 1) with
        | none => simp [hq] at h
        | some B2 =>
          simp only [hq] at h
          simp only [partition_frame X B low high B1 p hp,
            ih ((p - 1) - low).toNat (by omega) B1 low (p - 1) B2 rfl hq]
          exact ih (high - (p + 1)).toNat (by omega) B2 (p + 1) high R rfl h
    · rw [quickSortRecursion_done _ _ _ hlt] at h
      rw [quickSortRecursion_done _ _ _ hlt]
      simp only [Option.some.injEq] at h
      rw [h]

/-- The shift loop, when it stays inside a buffer, does the same in a longer
buffer. -/
theorem shiftLoop_frame (count : Int) (X : List Task) (B : List Task) (j : Int)
    (R : List Task) (h : shiftLoop count B j = some R) :
    shiftLoop count (B ++ X) j = some (R ++ X) := by
  induction B, j using shiftLoop.induct count with
  | case1 tasks j hj hr =>
    rw [shiftLoop] at h; simp [hj, hr] at h
  | case2 tasks j hj t hr hw =>
    rw [shiftLoop] at h; simp [hj, hr, hw] at h
  | case3 tasks j hj t hr tasks1 hw ih =>
    rw [shiftLoop] at h; simp [hj, hr, hw] at h
    rw [shiftLoop_step _ _ _ hj, readAt_frame _ X _ _ hr]
    simp only [writeAt_frame _ X _ _ _ hw]
    exact ih h
  | case4 tasks j hj =>
    rw [shiftLoop] at h; simp [hj] at h
    rw [shiftLoop_done _ _ _ hj, h]

/-- The scan of `deleteTask`, when it stays inside a buffer, does the same in a
longer buffer. -/
theorem deleteLoop_frame (td : todoList) (name : List Char) (X : List Task) :
    ∀ (n : Nat) (i : Int) (rc : Int) (td1 : todoList), (td.count - i).toNat = n →
    deleteLoop td name i = some (rc, td1) →
    deleteLoop { td with tasks := td.tasks ++ X } name i
      = some (rc, { td1 with tasks := td1.tasks ++ X }) := by
  intro n
  induction n using Nat.strong_induction_on with
  | _ n ih =>
    intro i rc td1 hn h
    by_cases hlt : i < td.count
    · rw [deleteLoop_step _ _ _ hlt] at h
      rw [deleteLoop_step _ _ _ (by exact hlt)]
      cases hr : readAt td.tasks i with
      | none => simp [hr] at h
      | some t =>
        simp only [hr] at h
        simp only [readAt_frame _ X _ _ hr]
        by_cases hs : strcmp t.name name = 0
        · simp only [hs, if_true] at h ⊢
          cases hsh : shiftLoop td.count td.tasks i with
          | none => simp [hsh] at h
          | some ts =>
            simp only [hsh, Option.some.injEq, Prod.mk.injEq] at h
            simp only [shiftLoop_frame _ X _ _ _ hsh, Option.some.injEq, Prod.mk.injEq]
            refine ⟨h.1, ?_⟩
            rw [← h.2]
        · simp only [hs, if_false] at h ⊢
          exact ih (td.count - (i + 1)).toNat (by omega) (i + 1) rc td1 rfl h
    · rw [deleteLoop_done _ _ _ hlt] at h
      rw [deleteLoop_done _ _ _ (by exact hlt)]
      simp only [Option.some.injEq, Prod.mk.injEq] at h ⊢
      refine ⟨h.1, ?_⟩
      rw [← h.2]

/-! ## Lemmas on loading any file -/

/-- The two outcomes of `capacityCheck` on a valid store: code 1 and the store
as it was, or code 0 and a valid store with the same count and entries, a
capacity that is not smaller, and a free slot when the capacity was not 0. -/
theorem capacityCheck_cases (ok : Bool) (td : todoList) (hv : Valid td) :
    ((capacityCheck ok td).1 = 1 ∧ (capacityCheck ok td).2 = td)
    ∨ ((capacityCheck ok td).1 = 0 ∧ Valid (capacityCheck ok td).2
        ∧ (capacityCheck ok td).2.count = td.count
        ∧ entries (capacityCheck ok td).2 = entries td
        ∧ td.capacity ≤ (capacityCheck ok td).2.capacity
        ∧ (0 < td.capacity → td.count < (capacityCheck ok td).2.capacity)) := by
  have hcc := capacityCheck_eq ok td hv
  obtain ⟨h0, h1, h2, h3⟩ := hv
  by_cases hc : td.count < td.capacity
  · rw [if_pos hc] at hcc
    rw [hcc]
    exact Or.inr ⟨rfl, ⟨h0, h1, h2, h3⟩, rfl, rfl, le_refl _, fun _ => hc⟩
  · rw [if_neg hc] at hcc
    by_cases hk : ok = true ∧ td.capacity * 2 < 2147483648
    · rw [if_pos hk] at hcc
      rw [hcc]
      refine Or.inr ⟨rfl, ⟨h0, ?_, ?_, hk.2⟩, rfl, ?_, ?_, ?_⟩
      · show td.count ≤ td.capacity * 2
        omega
      · show ((td.tasks ++ List.replicate td.capacity.toNat uninitTask).length : Int)
          = td.capacity * 2
        simp only [List.length_append, List.length_replicate]
        push_cast
        omega
      · show List.take td.count.toNat (td.tasks ++ List.replicate td.capacity.toNat uninitTask)
          = List.take td.count.toNat td.tasks
        rw [List.take_append_of_le_length (by omega)]
      · show td.capacity ≤ td.capacity * 2
        omega
      · intro hp
        show td.count < td.capacity * 2
        omega
    · rw [if_neg hk] at hcc
      rw [hcc]
      exact Or.inl ⟨rfl, rfl⟩

/-- Writing the slot at index count of a valid store: the write succeeds when
count is below capacity, and a write that succeeds appends an entry and leaves
a valid store. -/
theorem append_valid (td : todoList) (x : Task) (hv : Valid td) :
    (td.count < td.capacity → ∃ ts, writeAt td.tasks td.count x = some ts)
    ∧ (∀ ts, writeAt td.tasks td.count x = some ts →
        Valid { td with tasks := ts, count := wrapInt (td.count + 1) }
        ∧ entries { td with tasks := ts, count := wrapInt (td.count + 1) }
            = entries td ++ [x]) := by
  obtain ⟨h0, h1, h2, h3⟩ := hv
  constructor
  · intro hlt
    obtain ⟨ts, hw, _, _⟩ := writeAt_count td.tasks td.count x h0 (by omega)
    exact ⟨ts, hw⟩
  · intro ts hw
    have hlt : td.count < (td.tasks.length : Int) := by
      unfold writeAt at hw
      by_cases hc : 0 ≤ td.count ∧ td.count.toNat < td.tasks.length
      · omega
      · simp [hc] at hw
    obtain ⟨ts', hw', hlen, htk⟩ := writeAt_count td.tasks td.count x h0 hlt
    rw [hw] at hw'
    simp only [Option.some.injEq] at hw'
    subst hw'
    have hwr : wrapInt (td.count + 1) = td.count + 1 := wrapInt_id _ (by omega) (by omega)
    rw [hwr]
    refine ⟨⟨?_, ?_, ?_, h3⟩, ?_⟩
    · show 0 ≤ td.count + 1
      omega
    · show td.count + 1 ≤ td.capacity
      omega
    · show (ts.length : Int) = td.capacity
      rw [hlen]; exact h2
    · show List.take (td.count + 1).toNat ts = entries td ++ [x]
      rw [htk]; rfl

/-- Taking as many characters as the longest prefix satisfying `p` has gives
that prefix. -/
theorem take_length_takeWhile (p : Char → Bool) : ∀ l : List Char,
    l.take (l.takeWhile p).length = l.takeWhile p := by
  intro l
  induction l with
  | nil => simp
  | cons c l ih =>
    by_cases hc : p c = true
    · simp [List.takeWhile, hc, ih]
    · simp [List.takeWhile, hc]

/-- A line cut at `strcspn(buffer, "\n")` has no newline, and its characters
are characters of the buffer. -/
theorem cut_line (buffer : List Char) :
    '\n' ∉ buffer.take (strcspn buffer ['\n'])
      ∧ ∀ c ∈ buffer.take (strcspn buffer ['\n']), c ∈ buffer := by
  unfold strcspn
  rw [take_length_takeWhile]
  constructor
  · intro h
    have := List.mem_takeWhile_imp h
    simp at this
  · intro c hc
    exact (List.takeWhile_sublist _).subset hc

/-- The first character left by `dropWhile` does not satisfy the test. -/
theorem dropWhile_head (p : Char → Bool) : ∀ (l : List Char) (c : Char) (t : List Char),
    l.dropWhile p = c :: t → p c = false := by
  intro l
  induction l with
  | nil => intro c t h; simp at h
  | cons d l ih =>
    intro c t h
    by_cases hd : p d = true
    · simp only [List.dropWhile, hd] at h
      exact ih c t h
    · simp only [List.dropWhile, hd, List.cons.injEq] at h
      rw [← h.1]; simpa using hd

/-- A token returned by `strtok` with the comma as delimiter is non-empty, has
no comma, and consists of characters of the scanned string. -/
theorem strtok_token (s n r : List Char) (h : strtok s [','] = (some n, r)) :
    n ≠ [] ∧ ',' ∉ n ∧ ∀ c ∈ n, c ∈ s := by
  unfold strtok at h
  cases hd : List.dropWhile (fun c => decide (c ∈ [','])) s with
  | nil => rw [hd] at h; simp at h
  | cons c t =>
    rw [hd] at h
    simp only [Prod.mk.injEq, Option.some.injEq] at h
    have hc : decide (c ∈ [',']) = false := dropWhile_head _ s c t hd
    have hc3 : c ≠ ',' := by simpa using hc
    rw [← h.1]
    refine ⟨?_, ?_, ?_⟩
    · simp [List.takeWhile, hc3]
    · intro hm
      have := List.mem_takeWhile_imp hm
      simp at this
    · intro x hx
      have h1 : x ∈ c :: t := (List.takeWhile_sublist _).subset hx
      rw [← hd] at h1
      exact (List.dropWhile_sublist _).subset h1

/-- The name stored for the first token of a line cut at its newline. -/
theorem loaded_name (buffer n r : List Char)
    (h : strtok (buffer.take (strcspn buffer ['\n'])) [','] = (some n, r)) :
    LoadedName (strncpy n 99) := by
  obtain ⟨h1, h2, h3⟩ := strtok_token _ n r h
  obtain ⟨c1, _⟩ := cut_line buffer
  unfold strncpy
  refine ⟨?_, ?_, ?_, ?_⟩
  · obtain ⟨c, t, rfl⟩ := List.exists_cons_of_ne_nil h1
    simp
  · intro hm; exact h2 (List.mem_of_mem_take hm)
  · intro hm; exact c1 (h3 _ (List.mem_of_mem_take hm))
  · simp [List.length_take]

/-- The invariant of the loop of `loadTasks` on a valid store, for every file
and every allocator: a loop that ends leaves a valid store, a code 0 or 1, a
capacity that is not smaller, and the old entries followed by entries with
loaded names; and the loop ends when the capacity is not 0. -/
theorem loadLoop_inv : ∀ (n : Nat) (stream : List Char) (td : todoList) (ok : Nat → Bool),
    stream.length = n → Valid td →
    (∀ r, loadLoop ok td stream = some r →
      Valid r.2 ∧ (r.1 = 0 ∨ r.1 = 1) ∧ td.capacity ≤ r.2.capacity
        ∧ ∃ added, entries r.2 = entries td ++ added ∧ ∀ t ∈ added, LoadedName t.name)
    ∧ (0 < td.capacity → ∃ r, loadLoop ok td stream = some r) := by
  intro n
  induction n using Nat.strong_induction_on with
  | _ n ih =>
    intro stream td ok hn hv
    rw [loadLoop_step]
    cases hf : fgets 256 stream with
    | none =>
      simp only
      refine ⟨?_, fun _ => ⟨_, rfl⟩⟩
      intro r hr
      simp only [Option.some.injEq] at hr
      subst hr
      exact ⟨hv, Or.inl rfl, le_refl _, [], by simp, by simp⟩
    | some br =>
      obtain ⟨buf, rest⟩ := br
      have hrest : rest.length < n := by
        rw [← hn]; exact fgets_rest_length 256 stream buf rest (by decide) hf
      simp only
      have hcc : capacityCheck (ok 0) td
          = ((capacityCheck (ok 0) td).1, (capacityCheck (ok 0) td).2) := rfl
      rw [hcc]
      simp only
      rcases capacityCheck_cases (ok 0) td hv with ⟨c1, c2⟩ | ⟨c1, c2, c3, c4, c5, c6⟩
      · -- the reallocation failed
        simp only [c1, c2]
        refine ⟨?_, fun _ => ⟨_, rfl⟩⟩
        intro r hr
        simp only [ne_eq, one_ne_zero, not_false_eq_true, if_true, Option.some.injEq] at hr
        subst hr
        exact ⟨hv, Or.inr rfl, le_refl _, [], by simp, by simp⟩
      · simp only [c1, ne_eq, not_true_eq_false, if_false]
        cases h1 : strtok ((cstr buf).take (strcspn (cstr buf) ['\n'])) [','] with
        | mk tok1 st1 =>
        cases h2 : strtok st1 [','] with
        | mk tok2 st2 =>
        cases h3 : strtok st2 [','] with
        | mk tok3 st3 =>
        simp only
        cases tok1 with
        | none =>
          simp only
          refine ⟨?_, fun _ => ⟨_, rfl⟩⟩
          intro r hr
          simp only [Option.some.injEq] at hr
          subst hr
          exact ⟨c2, Or.inl rfl, c5, [], by simp [c4], by simp⟩
        | some nm =>
          cases tok2 with
          | none =>
            simp only
            refine ⟨?_, fun _ => ⟨_, rfl⟩⟩
            intro r hr
            simp only [Option.some.injEq] at hr
            subst hr
            exact ⟨c2, Or.inl rfl, c5, [], by simp [c4], by simp⟩
          | some pr =>
            cases tok3 with
            | none =>
              simp only
              refine ⟨?_, fun _ => ⟨_, rfl⟩⟩
              intro r hr
              simp only [Option.some.injEq] at hr
              subst hr
              exact ⟨c2, Or.inl rfl, c5, [], by simp [c4], by simp⟩
            | some cm =>
              simp only
              have hname : LoadedName (initializeTask nm (atoi pr) (atoi cm)).name :=
                loaded_name (cstr buf) nm st1 h1
              obtain ⟨a1, a2⟩ := append_valid (capacityCheck (ok 0) td).2
                (initializeTask nm (atoi pr) (atoi cm)) c2
              constructor
              · intro r hr
                cases hw : writeAt (capacityCheck (ok 0) td).2.tasks
                    (capacityCheck (ok 0) td).2.count
                    (initializeTask nm (atoi pr) (atoi cm)) with
                | none => rw [hw] at hr; simp at hr
                | some ts =>
                  rw [hw] at hr
                  simp only at hr
                  obtain ⟨v1, v2⟩ := a2 ts hw
                  obtain ⟨i1, i2, i3, added, i4, i5⟩ :=
                    (ih rest.length hrest rest _ (fun k => ok (k + 1)) rfl v1).1 r hr
                  refine ⟨i1, i2, le_trans c5 i3,
                    initializeTask nm (atoi pr) (atoi cm) :: added, ?_, ?_⟩
                  · rw [i4, v2, c4]; simp
                  · intro t ht
                    rcases List.mem_cons.mp ht with ht | ht
                    · rw [ht]; exact hname
                    · exact i5 t ht
              · intro hpos
                obtain ⟨ts, hw⟩ := a1 (by rw [c3]; exact c6 hpos)
                rw [hw]
                simp only
                obtain ⟨v1, _⟩ := a2 ts hw
                exact (ih rest.length hrest rest _ (fun k => ok (k + 1)) rfl v1).2
                  (by show 0 < (capacityCheck (ok 0) td).2.capacity; omega)

/-- The call `strtol` by the first character after the white space. -/
theorem strtol_eq (s : List Char) :
    strtol s =
      if (s.dropWhile isspace).head? = some '-' then
        max (-(digitsValue 0 (s.dropWhile isspace).tail : Int)) (-9223372036854775808)
      else if (s.dropWhile isspace).head? = some '+' then
        min (digitsValue 0 (s.dropWhile isspace).tail : Int) 9223372036854775807
      else min (digitsValue 0 (s.dropWhile isspace) : Int) 9223372036854775807 := by
  unfold strtol
  generalize List.dropWhile isspace s = l
  rcases l with _ | ⟨c, t⟩
  · simp
  · by_cases hm : c = '-'
    · subst hm; simp
    · by_cases hp : c = '+'
      · subst hp; simp
      · split
        · rename_i r heq
          simp only [List.cons.injEq] at heq
          exact absurd heq.1 hm
        · rename_i r heq
          simp only [List.cons.injEq] at heq
          exact absurd heq.1 hp
        · simp [hm, hp]

/-- The number a field denotes by the first character after the white space. -/
theorem leadingNumber_eq (s : List Char) :
    leadingNumber s =
      if (s.dropWhile isspace).head? = some '-' then
        -(digitsValue 0 (s.dropWhile isspace).tail : Int)
      else if (s.dropWhile isspace).head? = some '+' then
        (digitsValue 0 (s.dropWhile isspace).tail : Int)
      else (digitsValue 0 (s.dropWhile isspace) : Int) := by
  unfold leadingNumber
  generalize List.dropWhile isspace s = l
  rcases l with _ | ⟨c, t⟩
  · simp
  · by_cases hm : c = '-'
    · subst hm; simp
    · by_cases hp : c = '+'
      · subst hp; simp
      · split
        · rename_i r heq
          simp only [List.cons.injEq] at heq
          exact absurd heq.1 hm
        · rename_i r heq
          simp only [List.cons.injEq] at heq
          exact absurd heq.1 hp
        · simp [hm, hp]

/-- The call `atoi` returns the number the field denotes when that number is
an `int`. -/
theorem atoi_eq_leadingNumber (s : List Char) (h0 : -2147483648 ≤ leadingNumber s)
    (h1 : leadingNumber s < 2147483648) : atoi s = leadingNumber s := by
  unfold atoi
  have hs : strtol s = leadingNumber s := by
    rw [strtol_eq]
    rw [leadingNumber_eq] at h0 h1 ⊢
    by_cases hm : (s.dropWhile isspace).head? = some '-'
    · rw [if_pos hm] at h0 h1 ⊢
      rw [if_pos hm]
      omega
    · rw [if_neg hm] at h0 h1 ⊢
      rw [if_neg hm]
      by_cases hp : (s.dropWhile isspace).head? = some '+'
      · rw [if_pos hp] at h0 h1 ⊢
        rw [if_pos hp]
        omega
      · rw [if_neg hp] at h0 h1 ⊢
        rw [if_neg hp]
        omega
  rw [hs]
  exact wrapInt_id _ h0 h1

/-- One iteration of the loop of `loadTasks` on a line of three fields, when
`capacityCheck` reports success: a task with the first 99 characters of the
first field and the `atoi` values of the other two is appended. -/
theorem loadLoop_fields (ok : Nat → Bool) (td : todoList) (name P C rest : List Char)
    (hv : Valid td) (hpos : 0 < td.capacity) (hg : (capacityCheck (ok 0) td).1 = 0)
    (hn : FieldText name) (hP : FieldText P) (hC : FieldText C)
    (hlen : name.length + P.length + C.length + 2 < 255) :
    ∃ td1, loadLoop ok td (name ++ ',' :: (P ++ ',' :: C) ++ '\n' :: rest)
        = loadLoop (fun k => ok (k + 1)) td1 rest
      ∧ Valid td1 ∧ td1.count = td.count + 1
      ∧ td1.capacity = (capacityCheck (ok 0) td).2.capacity
      ∧ entries td1 = entries td ++ [initializeTask name (atoi P) (atoi C)] := by
  obtain ⟨n0, n1, n2, n3⟩ := hn
  obtain ⟨p0, p1, p2, p3⟩ := hP
  obtain ⟨c0, c1, c2, c3⟩ := hC
  obtain ⟨ts, hw, hv1, hwr, htk⟩ := writeAt_after_check (ok 0) td
    (initializeTask name (atoi P) (atoi C)) hv hpos hg
  have hcc : capacityCheck (ok 0) td = (0, (capacityCheck (ok 0) td).2) := Prod.ext hg rfl
  have hmem : ∀ c ∈ name ++ ',' :: (P ++ ',' :: C), c ≠ '\n' ∧ c ≠ Char.ofNat 0 := by
    intro c hc
    simp only [List.mem_append, List.mem_cons] at hc
    rcases hc with hc | hc | hc | hc | hc
    · exact ⟨fun h => n2 (h ▸ hc), fun h => n3 (h ▸ hc)⟩
    · subst hc; decide
    · exact ⟨fun h => p2 (h ▸ hc), fun h => p3 (h ▸ hc)⟩
    · subst hc; decide
    · exact ⟨fun h => c2 (h ▸ hc), fun h => c3 (h ▸ hc)⟩
  have hnl : '\n' ∉ name ++ ',' :: (P ++ ',' :: C) := fun h => (hmem _ h).1 rfl
  have hnul : Char.ofNat 0 ∉ (name ++ ',' :: (P ++ ',' :: C)) ++ ['\n'] := by
    intro h
    rcases List.mem_append.mp h with h | h
    · exact (hmem _ h).2 rfl
    · simp at h
  have hl : (name ++ ',' :: (P ++ ',' :: C)).length < 255 := by
    simp only [List.length_append, List.length_cons]
    omega
  have e1 := fgets_line _ rest hnl hl
  have e2 := cstr_of_no_nul _ hnul
  have e3 := strcspn_line _ hnl
  have e4 := strtok_field name (P ++ ',' :: C) n0 n1
  have e5 := strtok_field P C p0 p1
  have e6 := strtok_last C c0 c1
  refine ⟨_, ?_, hv1, rfl, rfl, htk⟩
  rw [loadLoop_step, e1]
  simp only
  rw [hcc]
  simp only [ne_eq, not_true_eq_false, if_false, e2, e3, e4, e5, e6, hw, hwr]

/-- The conversion `%d` writes the decimal text of the number, as `toString` does. -/
theorem fmtInt_eq_toString (n : Int) : fmtInt n = (toString n).toList := by
  unfold fmtInt
  cases n with
  | ofNat m =>
    have h : ¬ (Int.ofNat m < 0) := by simp
    simp only [h, if_false]
    show Nat.toDigits 10 (Int.ofNat m).toNat = (Nat.repr m).toList
    simp [Nat.repr, List.asString]
  | negSucc m =>
    have h : Int.negSucc m < 0 := Int.negSucc_lt_zero m
    simp only [h, if_true]
    show '-' :: Nat.toDigits 10 (Int.negSucc m).natAbs = ("-" ++ Nat.repr (m + 1)).toList
    simp [Nat.repr, List.asString, String.toList]

/-- The saved text is the concatenation of the lines of the tasks. -/
theorem linesOf_eq_flatMap (ts : List Task) : linesOf ts = ts.flatMap fprintfTask := by
  induction ts with
  | nil => rfl
  | cons t ts ih => simp [linesOf, ih, List.flatMap_cons]


/-- Reading a last line that has no newline stops at the end of the file. -/
theorem readLine_eof : ∀ (L : List Char) (k : Nat),
    '\n' ∉ L → L.length ≤ k → readLine k L = (L, []) := by
  intro L
  induction L with
  | nil =>
    intro k _ _
    cases k <;> simp [readLine]
  | cons c L ih =>
    intro k hn hk
    obtain ⟨k1, rfl⟩ : ∃ k1, k = k1 + 1 := ⟨k - 1, by simp at hk; omega⟩
    have hc : c ≠ '\n' := fun h => hn (by simp [h])
    have hL : '\n' ∉ L := fun h => hn (by simp [h])
    have e := ih k1 hL (by simp at hk; omega)
    simp only [readLine, hc, if_false, e]

/-- The call `fgets` on a last line without newline that fits the buffer. -/
theorem fgets_eof (L : List Char) (h0 : L ≠ []) (h1 : '\n' ∉ L) (h2 : L.length ≤ 255) :
    fgets 256 L = some (L, []) := by
  have := readLine_eof L 255 h1 h2
  obtain ⟨c, r, rfl⟩ := List.exists_cons_of_ne_nil h0
  simp only [fgets] at this ⊢
  rw [this]

/-- Cutting a line without newline at `strcspn(buffer, "\n")` leaves it whole. -/
theorem strcspn_noline (L : List Char) (h : '\n' ∉ L) :
    L.take (strcspn L ['\n']) = L := by
  unfold strcspn
  have e : L.takeWhile (fun c => decide (c ∉ ['\n'])) = L := by
    rw [List.takeWhile_eq_self_iff]
    intro c hc
    simp only [List.mem_singleton, decide_not, Bool.not_eq_true', decide_eq_false_iff_not]
    intro h0; exact h (h0 ▸ hc)
  rw [e]
  exact List.take_length L

/-- One iteration of the loop of `loadTasks` on a line of three fields that
fits the buffer, when `capacityCheck` reports success: the same task is
appended whether the line ends with a newline, followed by any rest of the
file, or with the end of the file, and the loop goes on with what follows. -/
theorem loadLoop_three_fields (ok : Nat → Bool) (td : todoList) (name P C : List Char)
    (hv : Valid td) (hpos : 0 < td.capacity) (hg : (capacityCheck (ok 0) td).1 = 0)
    (hn : FieldText name) (hP : FieldText P) (hC : FieldText C)
    (hlen : name.length + P.length + C.length + 2 < 255) :
    ∃ td1, Valid td1 ∧ td1.count = td.count + 1
      ∧ td1.capacity = (capacityCheck (ok 0) td).2.capacity
      ∧ entries td1 = entries td ++ [initializeTask name (atoi P) (atoi C)]
      ∧ (∀ rest, loadLoop ok td (name ++ ',' :: (P ++ ',' :: C) ++ '\n' :: rest)
          = loadLoop (fun k => ok (k + 1)) td1 rest)
      ∧ loadLoop ok td (name ++ ',' :: (P ++ ',' :: C)) = some (0, td1) := by
  obtain ⟨n0, n1, n2, n3⟩ := hn
  obtain ⟨p0, p1, p2, p3⟩ := hP
  obtain ⟨c0, c1, c2, c3⟩ := hC
  obtain ⟨ts, hw, hv1, hwr, htk⟩ := writeAt_after_check (ok 0) td
    (initializeTask name (atoi P) (atoi C)) hv hpos hg
  have hcc : capacityCheck (ok 0) td = (0, (capacityCheck (ok 0) td).2) := Prod.ext hg rfl
  have hmem : ∀ c ∈ name ++ ',' :: (P ++ ',' :: C), c ≠ '\n' ∧ c ≠ Char.ofNat 0 := by
    intro c hc
    simp only [List.mem_append, List.mem_cons] at hc
    rcases hc with hc | hc | hc | hc | hc
    · exact ⟨fun h => n2 (h ▸ hc), fun h => n3 (h ▸ hc)⟩
    · subst hc; decide
    · exact ⟨fun h => p2 (h ▸ hc), fun h => p3 (h ▸ hc)⟩
    · subst hc; decide
    · exact ⟨fun h => c2 (h ▸ hc), fun h => c3 (h ▸ hc)⟩
  have hnl : '\n' ∉ name ++ ',' :: (P ++ ',' :: C) := fun h => (hmem _ h).1 rfl
  have hnul0 : Char.ofNat 0 ∉ name ++ ',' :: (P ++ ',' :: C) := fun h => (hmem _ h).2 rfl
  have hnul : Char.ofNat 0 ∉ (name ++ ',' :: (P ++ ',' :: C)) ++ ['\n'] := by
    intro h
    rcases List.mem_append.mp h with h | h
    · exact hnul0 h
    · simp at h
  have hl : (name ++ ',' :: (P ++ ',' :: C)).length < 255 := by
    simp only [List.length_append, List.length_cons]
    omega
  have hne : name ++ ',' :: (P ++ ',' :: C) ≠ [] := by
    obtain ⟨c, r, rfl⟩ := List.exists_cons_of_ne_nil n0
    simp
  have e2 := cstr_of_no_nul _ hnul
  have e2' := cstr_of_no_nul _ hnul0
  have e3 := strcspn_line _ hnl
  have e3' := strcspn_noline _ hnl
  have e4 := strtok_field name (P ++ ',' :: C) n0 n1
  have e5 := strtok_field P C p0 p1
  have e6 := strtok_last C c0 c1
  refine ⟨_, hv1, rfl, rfl, htk, ?_, ?_⟩
  · intro rest
    rw [loadLoop_step, fgets_line _ rest hnl hl]
    simp only
    rw [hcc]
    simp only [ne_eq, not_true_eq_false, if_false, e2, e3, e4, e5, e6, hw, hwr]
  · rw [loadLoop_step, fgets_eof _ hne hnl (le_of_lt hl)]
    simp only
    rw [hcc]
    simp only [ne_eq, not_true_eq_false, if_false, e2', e3', e4, e5, e6, hw, hwr]
    rw [loadLoop_nil]


set_option maxRecDepth 100000 in
/-- The load of `longLineFile`: the first call of `fgets` reads `x,7,` and the
251 zeros, the task stored has completion flag 0, and the second call reads
the rest `5`, a line of one field, at which the loop ends. The third field of
the line is a field text and denotes 5. -/
theorem loadTasks_long_line :
    loadTasks (fun _ => true) emptyStore (some longLineFile)
        = some (0, { tasks := { name := "x".toList, priority := 7, completed := 0 }
                        :: List.replicate 9 uninitTask,
                     count := 1, capacity := 10 })
      ∧ longLineFile = "x,7,".toList ++ (List.replicate 251 '0' ++ ['5']) ++ ['\n']
      ∧ FieldText (List.replicate 251 '0' ++ ['5'])
      ∧ leadingNumber (List.replicate 251 '0' ++ ['5']) = 5 := by
  have f1 : fgets 256 longLineFile
      = some ("x,7,".toList ++ List.replicate 251 '0', "5\n".toList) := by decide
  have hc : capacityCheck true emptyStore = (0, emptyStore) := by decide
  have g1 : cstr ("x,7,".toList ++ List.replicate 251 '0')
      = "x,7,".toList ++ List.replicate 251 '0' := by decide
  have g2 : ("x,7,".toList ++ List.replicate 251 '0').take
      (strcspn ("x,7,".toList ++ List.replicate 251 '0') ['\n'])
      = "x,7,".toList ++ List.replicate 251 '0' := by decide
  have g3 : strtok ("x,7,".toList ++ List.replicate 251 '0') [',']
      = (some "x".toList, "7,".toList ++ List.replicate 251 '0') := by decide
  have g4 : strtok ("7,".toList ++ List.replicate 251 '0') [',']
      = (some "7".toList, List.replicate 251 '0') := by decide
  have g5 : strtok (List.replicate 251 '0') [','] = (some (List.replicate 251 '0'), []) := by
    decide
  have g6 : atoi "7".toList = 7 := by decide
  have g7 : atoi (List.replicate 251 '0') = 0 := by decide
  have g8 : writeAt emptyStore.tasks emptyStore.count (initializeTask "x".toList 7 0)
      = some ({ name := "x".toList, priority := 7, completed := 0 }
          :: List.replicate 9 uninitTask) := by decide
  have g9 : wrapInt (emptyStore.count + 1) = 1 := by decide
  refine ⟨?_, by decide, by decide, by decide⟩
  unfold loadTasks
  simp only
  rw [loadLoop_step, f1]
  simp only
  rw [hc]
  simp only [ne_eq, not_true_eq_false, if_false, g1, g2, g3, g4, g5, g6, g7, g8, g9]
  rw [loadLoop_step]
  simp [fgets, readLine, capacityCheck, cstr, strcspn, strtok, emptyStore]

/-- On a full store whose reallocation is refused, the load of a line returns
1 at the capacity check and leaves the store as it was. -/
theorem loadTasks_refused :
    loadTasks (fun _ => false) fullStore (some "y,7,0\n".toList) = some (1, fullStore) := by
  unfold loadTasks
  simp only
  rw [loadLoop_step]
  simp [fgets, readLine, capacityCheck, fullStore, realloc]

/-! ## Lemmas on sequences of operations -/

/-- The function `sortTasks` returns on a valid store and leaves it valid,
with the same capacity. -/
theorem sortTasks_valid (td : todoList) (hv : Valid td) :
    ∃ td1, sortTasks td = some td1 ∧ Valid td1 ∧ td1.capacity = td.capacity := by
  obtain ⟨hsplit, hlen⟩ := tasks_split td hv
  obtain ⟨h0, h1, h2, h3⟩ := hv
  obtain ⟨S, hq, hperm, _⟩ := quickSortRecursion_spec (entries td).length []
    (entries td) (td.tasks.drop td.count.toNat) 0 (td.count - 1) rfl (by simp)
    (by simp [hlen])
  simp only [List.nil_append] at hq
  rw [← hsplit] at hq
  unfold sortTasks
  by_cases hc : td.count > 1
  · simp only [hc, if_true, hq]
    refine ⟨_, rfl, ⟨h0, h1, ?_, h3⟩, rfl⟩
    show ((S ++ td.tasks.drop td.count.toNat).length : Int) = td.capacity
    have e := congrArg List.length hsplit
    simp only [List.length_append] at e ⊢
    rw [hperm.length_eq]
    omega
  · simp only [hc, if_false]
    exact ⟨td, rfl, ⟨h0, h1, h2, h3⟩, rfl⟩

/-- The function `deleteTask` returns on a valid store and leaves it valid,
with the same capacity. -/
theorem deleteTask_valid (td : todoList) (name : List Char) (hv : Valid td) :
    ∃ rc td1, deleteTask td name = some (rc, td1) ∧ Valid td1
      ∧ td1.capacity = td.capacity := by
  obtain ⟨hsplit, hlen⟩ := tasks_split td hv
  have hv2 := hv
  obtain ⟨h0, h1, h2, h3⟩ := hv
  by_cases hm : ∃ t ∈ entries td, t.name = name
  · obtain ⟨A, x, B, hE, hx, hA⟩ := exists_first_match name _ hm
    rw [hE] at hsplit hlen
    simp only [List.length_append, List.length_cons] at hlen
    obtain ⟨z, hz⟩ := deleteLoop_found td name x B (td.tasks.drop td.count.toNat) hx A [] 0
      (by simpa using hsplit) (by simp; push_cast at hlen; omega) (by simp) hA
    have hw : wrapInt (td.count - 1) = td.count - 1 :=
      wrapInt_id _ (by push_cast at hlen; omega) (by omega)
    rw [hw] at hz
    refine ⟨0, _, hz, ⟨?_, ?_, ?_, h3⟩, rfl⟩
    · show 0 ≤ td.count - 1
      push_cast at hlen; omega
    · show td.count - 1 ≤ td.capacity
      omega
    · show (([] ++ (A ++ (B ++ z :: td.tasks.drop td.count.toNat))).length : Int) = td.capacity
      have := congrArg List.length hsplit
      simp only [List.nil_append, List.length_append, List.length_cons] at this ⊢
      push_cast at this ⊢
      omega
  · have hA : ∀ t ∈ entries td, t.name ≠ name := fun t ht hn => hm ⟨t, ht, hn⟩
    refine ⟨1, td, ?_, hv2, rfl⟩
    exact deleteLoop_absent td name (td.tasks.drop td.count.toNat) (entries td) [] 0
      (by simpa using hsplit) (by simp [hlen]) (by simp) hA

/-- The store left by `freeList` is valid. -/
theorem freeList_valid (td : todoList) : Valid (freeList td) := by
  show Valid { tasks := [], count := 0, capacity := 0 }
  decide

/-- One operation on a valid store, with room when it may write a new entry:
it returns, the store stays valid, and the capacity does not shrink unless the
operation releases the buffer. -/
theorem step_valid (td : todoList) (op : Op) (hv : Valid td)
    (hroom : appends op = true → 0 < td.capacity) :
    ∃ td1, step td op = some td1 ∧ Valid td1
      ∧ (releases op = false → td.capacity ≤ td1.capacity) := by
  cases op with
  | add ok name priority =>
    have hpos : 0 < td.capacity := hroom rfl
    rcases capacityCheck_cases ok td hv with ⟨c1, c2⟩ | ⟨c1, c2, c3, c4, c5, c6⟩
    · refine ⟨td, ?_, hv, fun _ => le_refl _⟩
      show addTask ok td name priority = some td
      unfold addTask
      have hcc : capacityCheck ok td = (1, td) := Prod.ext c1 c2
      rw [hcc]
      simp
    · obtain ⟨td1, a1, a2, _, a4, _⟩ := addTask_spec ok td name priority hv hpos c1
      exact ⟨td1, a1, a2, fun _ => by rw [a4]; exact c5⟩
  | delete name =>
    obtain ⟨rc, td1, d1, d2, d3⟩ := deleteTask_valid td name hv
    refine ⟨td1, ?_, d2, fun _ => by rw [d3]⟩
    show (deleteTask td name).map (fun r => r.2) = some td1
    rw [d1]; rfl
  | sort =>
    obtain ⟨td1, s1, s2, s3⟩ := sortTasks_valid td hv
    exact ⟨td1, s1, s2, fun _ => by rw [s3]⟩
  | save canOpen =>
    refine ⟨td, ?_, hv, fun _ => le_refl _⟩
    show (saveTasks canOpen td).map (fun _ => td) = some td
    cases canOpen with
    | true => rw [saveTasks_eq td hv]; rfl
    | false => rfl
  | load ok file =>
    cases file with
    | none =>
      refine ⟨freeList td, rfl, freeList_valid td, ?_⟩
      intro h; simp [releases] at h
    | some content =>
      have hpos : 0 < td.capacity := hroom rfl
      obtain ⟨l1, l2⟩ := loadLoop_inv content.length content td ok rfl hv
      obtain ⟨r, hr⟩ := l2 hpos
      obtain ⟨i1, _, i3, _⟩ := l1 r hr
      refine ⟨r.2, ?_, i1, fun _ => i3⟩
      show (loadTasks ok td (some content)).map (fun r => r.2) = some r.2
      unfold loadTasks
      simp only
      rw [hr]; rfl
  | free =>
    refine ⟨freeList td, rfl, freeList_valid td, ?_⟩
    intro h; simp [releases] at h

/-- A sequence of operations on a valid store that has room, or that writes no
new entry: it returns, and the store stays valid. -/
theorem run_valid : ∀ (ops : List Op) (td : todoList), Valid td →
    ((0 < td.capacity ∧ noAppendAfterRelease ops = true)
      ∨ ops.all (fun o => !appends o) = true) →
    ∃ td1, run td ops = some td1 ∧ Valid td1 := by
  intro ops
  induction ops with
  | nil => intro td hv _; exact ⟨td, rfl, hv⟩
  | cons op ops ih =>
    intro td hv h
    have hroom : appends op = true → 0 < td.capacity := by
      intro ha
      rcases h with ⟨hp, _⟩ | hall
      · exact hp
      · simp only [List.all_cons, Bool.and_eq_true, Bool.not_eq_true'] at hall
        rw [hall.1] at ha
        exact absurd ha (by decide)
    obtain ⟨td1, s1, s2, s3⟩ := step_valid td op hv hroom
    have hrest : (0 < td1.capacity ∧ noAppendAfterRelease ops = true)
        ∨ ops.all (fun o => !appends o) = true := by
      rcases h with ⟨hp, hn⟩ | hall
      · simp only [noAppendAfterRelease, Bool.and_eq_true] at hn
        by_cases hr : releases op = true
        · right
          simpa [hr] using hn.1
        · left
          have hr2 : releases op = false := by simpa using hr
          exact ⟨lt_of_lt_of_le hp (s3 hr2), hn.2⟩
      · right
        simp only [List.all_cons, Bool.and_eq_true] at hall
        exact hall.2
    obtain ⟨td2, r1, r2⟩ := ih td1 s2 hrest
    refine ⟨td2, ?_, r2⟩
    simp only [run, s1]
    exact r1

/-! ## Sort correctness -/

/-- Claim C1: for every valid store, `sortTasks` returns a store with the same
count, capacity and buffer size, in which every adjacent pair of entries below
count is in ascending order of priority, and whose entries are a permutation
of the entries before. -/
theorem sortTasks_sorted_perm (td : todoList) (hv : Valid td) :
    ∃ td1, sortTasks td = some td1 ∧ td1.count = td.count ∧ td1.capacity = td.capacity
      ∧ td1.tasks.length = td.tasks.length
      ∧ (∀ i : Int, 0 ≤ i → i + 1 < td1.count →
          ∃ a b, readAt td1.tasks i = some a ∧ readAt td1.tasks (i + 1) = some b
            ∧ a.priority ≤ b.priority)
      ∧ (entries td1).Perm (entries td) := by
  obtain ⟨h0, h1, h2, h3⟩ := hv
  have hcl : td.count.toNat ≤ td.tasks.length := by omega
  have hsplit : td.tasks
      = [] ++ (td.tasks.take td.count.toNat ++ td.tasks.drop td.count.toNat) := by
    simp
  have hmid : (td.tasks.take td.count.toNat).length = td.count.toNat := by
    simp [hcl]
  obtain ⟨S, hq, hperm, hsort⟩ := quickSortRecursion_spec td.count.toNat []
    (td.tasks.take td.count.toNat) (td.tasks.drop td.count.toNat) 0 (td.count - 1) hmid
    (by simp) (by rw [hmid]; simp; omega)
  rw [← hsplit] at hq
  have hS : S.length = td.count.toNat := by rw [hperm.length_eq, hmid]
  have key : ∀ ts, ts = S ++ td.tasks.drop td.count.toNat →
      ts.length = td.tasks.length
      ∧ (∀ i : Int, 0 ≤ i → i + 1 < td.count →
          ∃ a b, readAt ts i = some a ∧ readAt ts (i + 1) = some b
            ∧ a.priority ≤ b.priority)
      ∧ (ts.take td.count.toNat).Perm (td.tasks.take td.count.toNat) := by
    intro ts hts
    subst hts
    refine ⟨by simp [hS]; omega, ?_, ?_⟩
    · intro i hi0 hi1
      obtain ⟨k, rfl⟩ : ∃ k : Nat, i = (k : Int) := ⟨i.toNat, by omega⟩
      have hk1 : k + 1 < S.length := by omega
      have hk : k < S.length := by omega
      refine ⟨S[k], S[k + 1], readAt_append_left S _ k hk, ?_, ?_⟩
      · have := readAt_append_left S (td.tasks.drop td.count.toNat) (k + 1) hk1
        simpa using this
      · exact (List.pairwise_iff_getElem.mp hsort) k (k + 1) hk hk1 (by omega)
    · have e : (S ++ td.tasks.drop td.count.toNat).take td.count.toNat = S := by
        rw [← hS]; simp
      rw [e]; exact hperm
  unfold sortTasks
  by_cases hc : td.count > 1
  · simp only [hc, if_true, hq]
    obtain ⟨k1, k2, k3⟩ := key ([] ++ (S ++ td.tasks.drop td.count.toNat)) rfl
    exact ⟨_, rfl, rfl, rfl, k1, k2, k3⟩
  · simp only [hc, if_false]
    refine ⟨td, rfl, rfl, rfl, rfl, ?_, List.Perm.refl _⟩
    intro i hi0 hi1
    omega

/-- Claim C1 at the end-to-end example: the store built by the three adds is
valid, the general statement applies to it, and sorting it yields "Write
report", "Buy milk", "Call dentist". -/
theorem sortTasks_sorted_perm_witness :
    Valid milkStore
    ∧ (∃ td1, sortTasks milkStore = some td1 ∧ td1.count = milkStore.count
        ∧ td1.capacity = milkStore.capacity
        ∧ td1.tasks.length = milkStore.tasks.length
        ∧ (∀ i : Int, 0 ≤ i → i + 1 < td1.count →
            ∃ a b, readAt td1.tasks i = some a ∧ readAt td1.tasks (i + 1) = some b
              ∧ a.priority ≤ b.priority)
        ∧ (entries td1).Perm (entries milkStore))
    ∧ ((initializeList true).bind (fun s0 => (addTask true s0 "Buy milk".toList 2).bind
        (fun s1 => (addTask true s1 "Write report".toList 1).bind
          (fun s2 => addTask true s2 "Call dentist".toList 3)))) = some milkStore
    ∧ (sortTasks milkStore).map entries
        = some [{ name := "Write report".toList, priority := 1, completed := 0 },
                { name := "Buy milk".toList, priority := 2, completed := 0 },
                { name := "Call dentist".toList, priority := 3, completed := 0 }] :=
  ⟨by decide, sortTasks_sorted_perm milkStore (by decide), by decide,
    by simp [sortTasks, milkStore, quickSortRecursion_step, quickSortRecursion_done, partition,
      partitionLoop_step, partitionLoop_done, swap, readAt, writeAt, entries]⟩

/-! ## Round trip -/

/-- Claim C2, counterexample: a valid store whose single task has the empty
name (no comma, at most 99 characters) is saved as the line `,1,0`; loading
that text into the freshly initialized store returns 0 and appends nothing, so
the loaded entries differ from the saved ones. -/
theorem roundtrip_empty_name :
    Valid emptyNameStore
    ∧ (∀ t ∈ entries emptyNameStore, ',' ∉ t.name ∧ t.name.length ≤ 99)
    ∧ saveTasks true emptyNameStore = some (0, some ",1,0\n".toList)
    ∧ loadTasks (fun _ => true) emptyStore (some ",1,0\n".toList) = some (0, emptyStore)
    ∧ entries emptyStore ≠ entries emptyNameStore := by
  refine ⟨by decide, by decide, ?_, ?_, by decide⟩
  · rw [saveTasks_eq _ (by decide)]
    decide
  · unfold loadTasks
    simp only
    rw [loadLoop_step]
    simp [fgets, readLine, capacityCheck, emptyStore, cstr, strcspn, strtok]

/-- Claim C2, amended: for a valid store of storable tasks, `saveTasks` writes
a text from which `loadTasks`, started on the freshly initialized store, ends
with code 0 or 1; with code 0 the loaded entries are the saved entries in the
saved order; and the code is 0 when the allocator never refuses and the store
has at most 1342177280 entries. -/
theorem save_load_roundtrip (td td0 : todoList) (ok : Nat → Bool)
    (hv : Valid td) (hS : ∀ t ∈ entries td, Storable t)
    (hinit : initializeList true = some td0) :
    ∃ text rc td1, saveTasks true td = some (0, some text)
      ∧ loadTasks ok td0 (some text) = some (rc, td1)
      ∧ (rc = 0 ∨ rc = 1)
      ∧ (rc = 0 → entries td1 = entries td)
      ∧ ((∀ j, ok j = true) → td.count ≤ 1342177280 → rc = 0) := by
  have h0 : initializeList true = some emptyStore := by decide
  rw [h0] at hinit
  simp only [Option.some.injEq] at hinit
  subst hinit
  obtain ⟨_, hlen⟩ := tasks_split td hv
  obtain ⟨rc, td1, e1, e2, e3⟩ := loadLoop_lines_any (entries td) emptyStore ok (by decide)
    (by decide) hS
  refine ⟨linesOf (entries td), rc, td1, saveTasks_eq td hv, ?_, e2, ?_, ?_⟩
  · unfold loadTasks
    exact e1
  · intro h; rw [e3 h]; simp [entries, emptyStore]
  · intro hok hN
    obtain ⟨td2, f1, _⟩ := loadLoop_lines (entries td) emptyStore 0 ok hok (by decide)
      (by decide) (by rw [hlen]; simp [emptyStore]; omega) hS
    rw [f1] at e1
    simp only [Option.some.injEq, Prod.mk.injEq] at e1
    exact e1.1.symm

/-- Claim C2, amended, at the end-to-end example with an allocator that never
refuses: the load returns 0 and the loaded entries are the saved ones. -/
theorem save_load_roundtrip_witness :
    Valid milkStore ∧ (∀ t ∈ entries milkStore, Storable t)
    ∧ initializeList true = some emptyStore
    ∧ ∃ text td1, saveTasks true milkStore = some (0, some text)
      ∧ loadTasks (fun _ => true) emptyStore (some text) = some (0, td1)
      ∧ entries td1 = entries milkStore := by
  refine ⟨by decide, by decide, by decide, ?_⟩
  obtain ⟨text, rc, td1, h1, h2, _, h4, h5⟩ :=
    save_load_roundtrip milkStore emptyStore (fun _ => true) (by decide) (by decide)
      (by decide)
  have hrc : rc = 0 := h5 (fun _ => rfl) (by decide)
  subst hrc
  exact ⟨text, td1, h1, h2, h4 rfl⟩

/-! ## Delete semantics -/

/-- Claim C3: when some entry of a valid store has the given name, `deleteTask`
returns 0, count drops by exactly 1, capacity is unchanged, and the entries
are the original ones with the first entry of that name removed: the entries
`A` before it and the entries `B` after it, a later entry of the same name
included, keep their order. -/
theorem deleteTask_found (td : todoList) (name : List Char) (hv : Valid td)
    (hex : ∃ t ∈ entries td, t.name = name) :
    ∃ td1, deleteTask td name = some (0, td1)
      ∧ td1.count = td.count - 1 ∧ td1.capacity = td.capacity ∧ Valid td1
      ∧ ∃ A x B, entries td = A ++ x :: B ∧ x.name = name ∧ (∀ t ∈ A, t.name ≠ name)
          ∧ entries td1 = A ++ B := by
  obtain ⟨A, x, B, hE, hx, hA⟩ := exists_first_match name _ hex
  obtain ⟨hsplit, hlen⟩ := tasks_split td hv
  have hv2 := hv
  obtain ⟨h0, h1, h2, h3⟩ := hv
  rw [hE] at hsplit hlen
  simp only [List.length_append, List.length_cons] at hlen
  obtain ⟨z, hz⟩ := deleteLoop_found td name x B (td.tasks.drop td.count.toNat) hx A [] 0
    (by simpa using hsplit) (by simp; push_cast at hlen; omega) (by simp) hA
  have hw : wrapInt (td.count - 1) = td.count - 1 :=
    wrapInt_id _ (by push_cast at hlen; omega) (by omega)
  rw [hw] at hz
  refine ⟨_, hz, rfl, rfl, ?_, A, x, B, hE, hx, hA, ?_⟩
  · refine ⟨?_, ?_, ?_, h3⟩
    · simp; push_cast at hlen; omega
    · simp; omega
    · simp only [List.nil_append, List.length_append, List.length_cons]
      have := congrArg List.length hsplit
      simp only [List.length_append, List.length_cons] at this
      push_cast at this ⊢
      omega
  · simp only [entries, List.nil_append]
    have hc : (td.count - 1).toNat = (A ++ B).length := by
      simp; push_cast at hlen; omega
    rw [hc, ← List.append_assoc, List.take_left]

/-- Claim C3 at a store with the names a, b, a: deleting "a" removes the first
entry and keeps the later entry of the same name. -/
theorem deleteTask_found_witness :
    Valid dupStore ∧ (∃ t ∈ entries dupStore, t.name = "a".toList)
    ∧ ∃ td1, deleteTask dupStore "a".toList = some (0, td1)
      ∧ td1.count = dupStore.count - 1 ∧ td1.capacity = dupStore.capacity ∧ Valid td1
      ∧ ∃ A x B, entries dupStore = A ++ x :: B ∧ x.name = "a".toList
          ∧ (∀ t ∈ A, t.name ≠ "a".toList) ∧ entries td1 = A ++ B :=
  ⟨by decide, ⟨{ name := "a".toList, priority := 3, completed := 0 }, by decide, rfl⟩,
    deleteTask_found dupStore "a".toList (by decide)
      ⟨{ name := "a".toList, priority := 3, completed := 0 }, by decide, rfl⟩⟩

/-- Claim C4: when no entry of a valid store has the given name, `deleteTask`
returns 1 and the store is unchanged in every field. -/
theorem deleteTask_absent (td : todoList) (name : List Char) (hv : Valid td)
    (habs : ∀ t ∈ entries td, t.name ≠ name) :
    deleteTask td name = some (1, td) := by
  obtain ⟨hsplit, hlen⟩ := tasks_split td hv
  exact deleteLoop_absent td name (td.tasks.drop td.count.toNat) (entries td) [] 0
    (by simpa using hsplit) (by simp [hlen]) (by simp) habs

/-- Claim C4 at a store with the names a, b, a and the absent name "c". -/
theorem deleteTask_absent_witness :
    Valid dupStore ∧ (∀ t ∈ entries dupStore, t.name ≠ "c".toList)
    ∧ deleteTask dupStore "c".toList = some (1, dupStore) :=
  ⟨by decide, by decide, deleteTask_absent dupStore "c".toList (by decide) (by decide)⟩

/-! ## Capacity growth -/

/-- Claim C5: for every number N and every sequence of N calls of `addTask`
started from the freshly initialized store (count 0, capacity 10) in which
`capacityCheck` reports success each time, all calls return, the final count
is N and the final capacity is `10 * 2 ^ k` for the least k with
`N ≤ 10 * 2 ^ k`. -/
theorem addTasks_capacity (N : Nat) (items : List (Bool × List Char × Int)) (td0 : todoList)
    (hN : items.length = N) (hinit : initializeList true = some td0)
    (hg : growthSucceeds td0 items = true) :
    td0.count = 0 ∧ td0.capacity = 10
    ∧ ∃ td k, addTasks td0 items = some td ∧ td.count = N ∧ td.capacity = 10 * 2 ^ k
      ∧ (N : Int) ≤ 10 * 2 ^ k ∧ ∀ j, j < k → (10 * 2 ^ j : Int) < N := by
  have h0 : initializeList true = some emptyStore := by decide
  rw [h0] at hinit
  simp only [Option.some.injEq] at hinit
  subst hinit
  refine ⟨rfl, rfl, ?_⟩
  obtain ⟨td, k, h1, h2, h3, h4, h5⟩ := addTasks_growth items emptyStore 0 (by decide)
    (by decide) (by intro j hj; omega) hg
  have hcnt : td.count = N := by rw [h2, hN]; simp [emptyStore]
  refine ⟨td, k, h1, hcnt, h4, ?_, ?_⟩
  · rw [← h4, ← hcnt]; exact h3.2.1
  · intro j hj; rw [← hcnt]; exact h5 j hj

/-- Claim C5 at N = 11: the capacity has doubled once. -/
theorem addTasks_capacity_witness :
    (List.replicate 11 (true, "t".toList, (1 : Int))).length = 11
    ∧ initializeList true = some emptyStore
    ∧ growthSucceeds emptyStore (List.replicate 11 (true, "t".toList, 1)) = true
    ∧ (emptyStore.count = 0 ∧ emptyStore.capacity = 10
      ∧ ∃ td k, addTasks emptyStore (List.replicate 11 (true, "t".toList, 1)) = some td
        ∧ td.count = (11 : Nat) ∧ td.capacity = 10 * 2 ^ k
        ∧ ((11 : Nat) : Int) ≤ 10 * 2 ^ k ∧ ∀ j, j < k → (10 * 2 ^ j : Int) < (11 : Nat)) :=
  ⟨by decide, by decide, by decide,
    addTasks_capacity 11 (List.replicate 11 (true, "t".toList, 1)) emptyStore
      (by decide) (by decide) (by decide)⟩

/-! ## Malformed load -/

/-- Claim C6, the code at the failing input: on a file whose second line has
two fields, `loadTasks` appends the task of the first line, nothing else, and
returns 0, the code of a successful load. -/
theorem loadTasks_malformed_second_line :
    loadTasks (fun _ => true) emptyStore (some "a,1,0\nb,2\nc,3,0\n".toList)
      = some (0, { tasks := { name := "a".toList, priority := 1, completed := 0 }
                      :: List.replicate 9 uninitTask,
                   count := 1, capacity := 10 }) := by
  unfold loadTasks
  simp only
  rw [loadLoop_step]
  simp [fgets, readLine, capacityCheck, emptyStore, cstr, strcspn, strtok, atoi, strtol,
    digitsValue, wrapInt, writeAt, initializeTask, strncpy, isspace]
  rw [loadLoop_step]
  simp [fgets, readLine, capacityCheck, cstr, strcspn, strtok]

/-! ## Load from a file that cannot be opened -/

/-- Claim C7, counterexample: when the file cannot be opened, `loadTasks` on the
store of the end-to-end example, which has 3 entries and capacity 10, returns
1 and leaves a store with count 0, capacity 0 and no buffer. -/
theorem loadTasks_open_failure_example :
    loadTasks (fun _ => true) milkStore none
        = some (1, { tasks := [], count := 0, capacity := 0 })
      ∧ milkStore.count = 3 ∧ milkStore.capacity = 10 ∧ entries milkStore ≠ [] := by
  decide

/-- Claim C7, amended: when the file cannot be opened, `loadTasks` returns 1
and the store is the one `freeList` leaves: count 0, capacity 0, no buffer and
no entry, whatever the store was before. -/
theorem loadTasks_open_failure (ok : Nat → Bool) (td : todoList) :
    loadTasks ok td none = some (1, freeList td)
      ∧ (freeList td).count = 0 ∧ (freeList td).capacity = 0 ∧ (freeList td).tasks = []
      ∧ entries (freeList td) = [] :=
  ⟨rfl, rfl, rfl, rfl, rfl⟩

/-! ## Adding a task -/

/-- Claim C8, counterexample: on the store left by `freeList` (count 0,
capacity 0, no buffer), with an allocator that does not refuse, `capacityCheck`
reports success and `addTask` then writes outside the buffer: no task is
appended. -/
theorem addTask_freed_store :
    Valid (freeList emptyStore) ∧ (capacityCheck true (freeList emptyStore)).1 = 0
      ∧ addTask true (freeList emptyStore) "x".toList 1 = none := by decide

/-- Claim C8, amended: for every valid store with a capacity of at least 1,
every name and every priority, when `capacityCheck` reports success, `addTask`
returns a store whose count is one more and whose entries are the previous
entries, unchanged and in order, followed by a task with the given priority,
completed 0 and the first `min(length, 99)` characters of the name; whether an
entry of that name exists plays no part. -/
theorem addTask_appends (ok : Bool) (td : todoList) (name : List Char) (priority : Int)
    (hv : Valid td) (hpos : 0 < td.capacity) (hg : (capacityCheck ok td).1 = 0) :
    ∃ td1, addTask ok td name priority = some td1 ∧ td1.count = td.count + 1
      ∧ entries td1
          = entries td ++ [{ name := name.take 99, priority := priority, completed := 0 }]
      ∧ (name.take 99).length = min name.length 99 := by
  obtain ⟨td1, h1, _, h3, _, h5⟩ := addTask_spec ok td name priority hv hpos hg
  refine ⟨td1, h1, h3, h5, ?_⟩
  simp [List.length_take, Nat.min_comm]

/-- Claim C8, amended, at a store that already holds the name "a" twice. -/
theorem addTask_appends_witness :
    Valid dupStore ∧ 0 < dupStore.capacity ∧ (capacityCheck true dupStore).1 = 0
    ∧ ∃ td1, addTask true dupStore "a".toList 2 = some td1 ∧ td1.count = dupStore.count + 1
      ∧ entries td1
          = entries dupStore ++ [{ name := "a".toList.take 99, priority := 2, completed := 0 }]
      ∧ ("a".toList.take 99).length = min "a".toList.length 99 :=
  ⟨by decide, by decide, by decide,
    addTask_appends true dupStore "a".toList 2 (by decide) (by decide) (by decide)⟩

/-! ## Commas in names -/

/-- Claim C9, counterexample: `addTask` called with the name `a,b` on the
freshly initialized store stores `a,b`, comma included. -/
theorem addTask_keeps_comma :
    (addTask true emptyStore "a,b".toList 1).map entries
        = some [{ name := "a,b".toList, priority := 1, completed := 0 }]
      ∧ ',' ∈ "a,b".toList := by decide

/-- Claim C9, amended: `addTask` stores the first 99 characters of the name it
is given without rewriting any of them, so the stored name has a comma exactly
when those characters have one; the commas are replaced by the command loop
before it calls `addTask`, and a name rewritten by `replaceCommas` is stored
without a comma. -/
theorem addTask_name_verbatim (ok : Bool) (td : todoList) (name : List Char) (priority : Int)
    (hv : Valid td) (hpos : 0 < td.capacity) (hg : (capacityCheck ok td).1 = 0) :
    (∃ td1 t, addTask ok td name priority = some td1 ∧ entries td1 = entries td ++ [t]
      ∧ t.name = name.take 99 ∧ (',' ∈ t.name ↔ ',' ∈ name.take 99))
    ∧ (∃ td2 t, addTask ok td (replaceCommas name) priority = some td2
      ∧ entries td2 = entries td ++ [t] ∧ t.name = (replaceCommas name).take 99
      ∧ ',' ∉ t.name) := by
  obtain ⟨td1, h1, _, _, _, h5⟩ := addTask_spec ok td name priority hv hpos hg
  obtain ⟨td2, g1, _, _, _, g5⟩ := addTask_spec ok td (replaceCommas name) priority hv hpos hg
  refine ⟨⟨td1, _, h1, h5, rfl, Iff.rfl⟩, ⟨td2, _, g1, g5, rfl, ?_⟩⟩
  intro h
  exact replaceCommas_no_comma name (List.mem_of_mem_take h)

/-- Claim C9, amended, at the name `a,b` on the freshly initialized store. -/
theorem addTask_name_verbatim_witness :
    Valid emptyStore ∧ 0 < emptyStore.capacity ∧ (capacityCheck true emptyStore).1 = 0
    ∧ (∃ td1 t, addTask true emptyStore "a,b".toList 1 = some td1
        ∧ entries td1 = entries emptyStore ++ [t]
        ∧ t.name = "a,b".toList.take 99 ∧ (',' ∈ t.name ↔ ',' ∈ "a,b".toList.take 99))
    ∧ (∃ td2 t, addTask true emptyStore (replaceCommas "a,b".toList) 1 = some td2
        ∧ entries td2 = entries emptyStore ++ [t]
        ∧ t.name = (replaceCommas "a,b".toList).take 99 ∧ ',' ∉ t.name) :=
  ⟨by decide, by decide, by decide,
    addTask_name_verbatim true emptyStore "a,b".toList 1 (by decide) (by decide) (by decide)⟩

/-! ## Capacity check on a full store -/

/-- Claim C10: for every valid store with count equal to capacity, if the
`realloc` of `capacityCheck` fails then `capacityCheck` returns 1 and `addTask`
returns the store unchanged in every field; if it succeeds then `capacityCheck`
returns 0, the capacity is doubled, the buffer has that many slots, and count
and entries are as before. -/
theorem capacityCheck_full (ok : Bool) (td : todoList) (name : List Char) (priority : Int)
    (hv : Valid td) (hfull : td.count = td.capacity) :
    (realloc ok td.tasks (allocBytes (wrapInt (td.capacity * 2))) = none →
      capacityCheck ok td = (1, td) ∧ addTask ok td name priority = some td)
    ∧ (∀ tmp, realloc ok td.tasks (allocBytes (wrapInt (td.capacity * 2))) = some tmp →
        ∃ td1, capacityCheck ok td = (0, td1) ∧ td1.capacity = 2 * td.capacity
          ∧ td1.count = td.count ∧ td1.tasks = tmp ∧ (tmp.length : Int) = 2 * td.capacity
          ∧ entries td1 = entries td) := by
  obtain ⟨h0, h1, h2, h3⟩ := hv
  have hge : td.count ≥ td.capacity := by omega
  have hcc : capacityCheck ok td =
      match realloc ok td.tasks (allocBytes (wrapInt (td.capacity * 2))) with
      | none => (1, td)
      | some tmp => (0, { td with tasks := tmp, capacity := wrapInt (td.capacity * 2) }) := by
    unfold capacityCheck
    simp only [hge, if_true]
  have hr := realloc_double ok td.tasks td.capacity (by omega) h3
  constructor
  · intro hnone
    rw [hnone] at hcc
    refine ⟨hcc, ?_⟩
    unfold addTask
    rw [hcc]
    simp
  · intro tmp hsome
    rw [hsome] at hcc
    rw [hsome] at hr
    by_cases hk : ok = true ∧ td.capacity * 2 < 2147483648
    · rw [if_pos hk] at hr
      have hw : wrapInt (td.capacity * 2) = td.capacity * 2 :=
        wrapInt_id _ (by omega) hk.2
      simp only [Option.some.injEq] at hr
      have e1 : td.tasks.take (td.capacity * 2).toNat = td.tasks :=
        List.take_of_length_le (by omega)
      rw [e1] at hr
      refine ⟨_, hcc, ?_, rfl, rfl, ?_, ?_⟩
      · show wrapInt (td.capacity * 2) = 2 * td.capacity
        rw [hw]; ring
      · rw [hr]
        simp only [List.length_append, List.length_replicate]
        push_cast
        omega
      · show List.take td.count.toNat tmp = List.take td.count.toNat td.tasks
        rw [hr, List.take_append_of_le_length (by omega)]
    · rw [if_neg hk] at hr
      simp at hr

/-- Claim C10 at a store with two entries in two slots, once with an allocator
that refuses and once with one that does not. -/
theorem capacityCheck_full_witness :
    Valid fullStore ∧ fullStore.count = fullStore.capacity
    ∧ realloc false fullStore.tasks (allocBytes (wrapInt (fullStore.capacity * 2))) = none
    ∧ realloc true fullStore.tasks (allocBytes (wrapInt (fullStore.capacity * 2)))
        = some (fullStore.tasks ++ [uninitTask, uninitTask])
    ∧ (capacityCheck false fullStore = (1, fullStore)
        ∧ addTask false fullStore "c".toList 3 = some fullStore)
    ∧ ∃ td1, capacityCheck true fullStore = (0, td1) ∧ td1.capacity = 2 * fullStore.capacity
        ∧ td1.count = fullStore.count ∧ td1.tasks = fullStore.tasks ++ [uninitTask, uninitTask]
        ∧ ((fullStore.tasks ++ [uninitTask, uninitTask]).length : Int) = 2 * fullStore.capacity
        ∧ entries td1 = entries fullStore :=
  ⟨by decide, by decide, by decide, by decide,
    (capacityCheck_full false fullStore "c".toList 3 (by decide) (by decide)).1 (by decide),
    (capacityCheck_full true fullStore "c".toList 3 (by decide) (by decide)).2 _ (by decide)⟩

/-! ## Consistency of count, capacity and buffer -/

/-- Claim C11, counterexample: from the freshly initialized store, `freeList`
followed by `addTask` with an allocator that does not refuse accesses memory
outside the buffer: `freeList` leaves count 0, capacity 0 and no slot,
`capacityCheck` doubles the capacity 0 to 0 and returns 0, and the write to
slot 0 has no slot to go to, so no store with count within capacity results. -/
theorem run_free_then_add :
    initializeList true = some emptyStore
    ∧ run emptyStore [Op.free, Op.add true "x".toList 1] = none
    ∧ step emptyStore Op.free = some { tasks := [], count := 0, capacity := 0 }
    ∧ capacityCheck true { tasks := [], count := 0, capacity := 0 }
        = (0, { tasks := [], count := 0, capacity := 0 }) := by
  decide

/-- Claim C11, amended: from the freshly initialized store, every sequence of
`addTask`, `deleteTask`, `sortTasks`, `saveTasks`, `loadTasks` and `freeList`,
with every allocator outcome and every file, in which no `addTask` and no
`loadTasks` of a file that opens comes after a `freeList` or a `loadTasks`
whose file cannot be opened, returns a store with `0 ≤ count ≤ capacity` whose
buffer holds exactly capacity slots. -/
theorem run_consistent (ops : List Op) (td0 : todoList)
    (hinit : initializeList true = some td0) (hops : noAppendAfterRelease ops = true) :
    ∃ td, run td0 ops = some td ∧ 0 ≤ td.count ∧ td.count ≤ td.capacity
      ∧ (td.tasks.length : Int) = td.capacity := by
  have h0 : initializeList true = some emptyStore := by decide
  rw [h0] at hinit
  simp only [Option.some.injEq] at hinit
  subst hinit
  obtain ⟨td, h1, h2, h3, h4, _⟩ := run_valid ops emptyStore (by decide)
    (Or.inl ⟨by decide, hops⟩)
  exact ⟨td, h1, h2, h3, h4⟩

/-- Claim C11, amended, at a sequence with additions, a load with a malformed
line, a sort, deletions, a save, a file that cannot be opened and a final
`freeList`. -/
theorem run_consistent_witness :
    initializeList true = some emptyStore
    ∧ noAppendAfterRelease
        [Op.add true "a".toList 2, Op.load (fun _ => false) (some "b,1,0\nc,3\n".toList),
          Op.sort, Op.delete "a".toList, Op.add false "d".toList 1, Op.save true,
          Op.load (fun _ => true) none, Op.sort, Op.delete "b".toList, Op.free] = true
    ∧ ∃ td, run emptyStore
        [Op.add true "a".toList 2, Op.load (fun _ => false) (some "b,1,0\nc,3\n".toList),
          Op.sort, Op.delete "a".toList, Op.add false "d".toList 1, Op.save true,
          Op.load (fun _ => true) none, Op.sort, Op.delete "b".toList, Op.free] = some td
      ∧ 0 ≤ td.count ∧ td.count ≤ td.capacity ∧ (td.tasks.length : Int) = td.capacity :=
  ⟨by decide, by decide, run_consistent _ emptyStore (by decide) (by decide)⟩

/-! ## Saved text -/

/-- Claim C12: for every valid store, when the file can be opened, `saveTasks`
returns 0 and the text written is the concatenation, over the entries in
their current order, of the name, a comma, the priority in decimal without
padding, a comma, the completed flag in decimal without padding, and a
newline; a store with count 0 writes the empty text.  The store is only read:
the function has no store to return. -/
theorem saveTasks_text (td : todoList) (hv : Valid td) :
    saveTasks true td
        = some (0, some ((entries td).flatMap (fun t =>
            t.name ++ [','] ++ (toString t.priority).toList ++ [',']
              ++ (toString t.completed).toList ++ ['\n'])))
      ∧ (td.count = 0 → saveTasks true td = some (0, some [])) := by
  have h := saveTasks_eq td hv
  have e : (fun t : Task => t.name ++ [','] ++ (toString t.priority).toList ++ [',']
              ++ (toString t.completed).toList ++ ['\n']) = fprintfTask := by
    funext t
    simp only [fprintfTask, fmtInt_eq_toString]
  rw [e, ← linesOf_eq_flatMap]
  refine ⟨h, ?_⟩
  intro hc
  rw [h]
  simp [entries, hc, linesOf]

/-- Claim C12 at the end-to-end example and at the freshly initialized store:
three lines, and an empty file. -/
theorem saveTasks_text_witness :
    Valid milkStore ∧ Valid emptyStore ∧ emptyStore.count = 0
    ∧ saveTasks true milkStore
        = some (0, some ((entries milkStore).flatMap (fun t =>
            t.name ++ [','] ++ (toString t.priority).toList ++ [',']
              ++ (toString t.completed).toList ++ ['\n'])))
    ∧ saveTasks true emptyStore = some (0, some [])
    ∧ saveTasks true milkStore
        = some (0, some "Buy milk,2,0\nWrite report,1,0\nCall dentist,3,0\n".toList) := by
  refine ⟨by decide, by decide, by decide, (saveTasks_text milkStore (by decide)).1,
    (saveTasks_text emptyStore (by decide)).2 (by decide), ?_⟩
  rw [saveTasks_eq _ (by decide)]
  decide

/-! ## Lenient numbers -/

/-- Claim C13, counterexample: three loads that the sentence "every line of
three non-empty fields is loaded with the numbers its fields denote" does not
cover. The line `x,4294967297,0` is loaded without a failure code, and the
priority stored is 1, not 4294967297, the value of the leading decimal digits
of the field, which no `int` can hold. The line of `longLineFile`, longer than
the 255 characters one call of `fgets` reads, is loaded with completion flag
0 where its third field denotes 5. And on a full store whose reallocation is
refused the line `y,7,0` is not appended: the load returns 1. -/
theorem loadTasks_number_beyond_int :
    loadTasks (fun _ => true) emptyStore (some "x,4294967297,0\n".toList)
        = some (0, { tasks := { name := "x".toList, priority := 1, completed := 0 }
                        :: List.replicate 9 uninitTask,
                     count := 1, capacity := 10 })
      ∧ digitsValue 0 "4294967297".toList = 4294967297
      ∧ loadTasks (fun _ => true) emptyStore (some longLineFile)
        = some (0, { tasks := { name := "x".toList, priority := 7, completed := 0 }
                        :: List.replicate 9 uninitTask,
                     count := 1, capacity := 10 })
      ∧ longLineFile = "x,7,".toList ++ (List.replicate 251 '0' ++ ['5']) ++ ['\n']
      ∧ FieldText (List.replicate 251 '0' ++ ['5'])
      ∧ leadingNumber (List.replicate 251 '0' ++ ['5']) = 5
      ∧ loadTasks (fun _ => false) fullStore (some "y,7,0\n".toList) = some (1, fullStore) := by
  refine ⟨?_, by decide, loadTasks_long_line.1, loadTasks_long_line.2.1,
    loadTasks_long_line.2.2.1, loadTasks_long_line.2.2.2, loadTasks_refused⟩
  unfold loadTasks
  simp only
  rw [loadLoop_step]
  simp [fgets, readLine, capacityCheck, emptyStore, cstr, strcspn, strtok, atoi, strtol,
    digitsValue, wrapInt, writeAt, initializeTask, strncpy, isspace]
  rw [loadLoop_nil]

/-- Claim C13, amended: let the text still to be read begin with a line
`name,P,C` of three non-empty fields without comma, newline or NUL, of at
most 254 characters in all (so that one call of `fgets` on the 256-byte
buffer reads it whole), and let the store be valid, of capacity at least 1,
and such that `capacityCheck` succeeds on it. Then `loadTasks` appends one
task with the first 99 characters of the name and the `atoi` values of `P`
and `C`, whatever these values are (no range is checked); when the line ends
with a newline the load goes on with the text after it exactly as a load of
that text into the new store; when the line is the last one, with or without
its newline, the load returns 0. And `atoi` of a field is the number the
field denotes (white space and one sign passed over, leading decimal digits,
0 when there is no digit) whenever that number is an `int`. -/
theorem loadTasks_lenient (ok : Nat → Bool) (td : todoList) (name P C : List Char)
    (hv : Valid td) (hpos : 0 < td.capacity) (hg : (capacityCheck (ok 0) td).1 = 0)
    (hn : FieldText name) (hP : FieldText P) (hC : FieldText C)
    (hlen : name.length + P.length + C.length + 2 < 255) :
    ∃ td1, td1.count = td.count + 1
      ∧ entries td1
          = entries td ++ [{ name := name.take 99, priority := atoi P, completed := atoi C }]
      ∧ (∀ rest, loadTasks ok td (some (name ++ [','] ++ P ++ [','] ++ C ++ ['\n'] ++ rest))
          = loadTasks (fun k => ok (k + 1)) td1 (some rest))
      ∧ loadTasks ok td (some (name ++ [','] ++ P ++ [','] ++ C ++ ['\n'])) = some (0, td1)
      ∧ loadTasks ok td (some (name ++ [','] ++ P ++ [','] ++ C)) = some (0, td1)
      ∧ (-2147483648 ≤ leadingNumber P → leadingNumber P < 2147483648 →
          atoi P = leadingNumber P)
      ∧ (-2147483648 ≤ leadingNumber C → leadingNumber C < 2147483648 →
          atoi C = leadingNumber C) := by
  obtain ⟨td1, _, h2, _, h4, h5, h6⟩ :=
    loadLoop_three_fields ok td name P C hv hpos hg hn hP hC hlen
  have e1 : ∀ rest, name ++ [','] ++ P ++ [','] ++ C ++ ['\n'] ++ rest
      = name ++ ',' :: (P ++ ',' :: C) ++ '\n' :: rest := by intro rest; simp
  have e2 : name ++ [','] ++ P ++ [','] ++ C ++ ['\n']
      = name ++ ',' :: (P ++ ',' :: C) ++ '\n' :: [] := by simp
  have e3 : name ++ [','] ++ P ++ [','] ++ C = name ++ ',' :: (P ++ ',' :: C) := by simp
  refine ⟨td1, h2, h4, ?_, ?_, ?_, atoi_eq_leadingNumber P, atoi_eq_leadingNumber C⟩
  · intro rest
    unfold loadTasks
    simp only
    rw [e1, h5]
  · unfold loadTasks
    simp only
    rw [e2, h5, loadLoop_nil]
  · unfold loadTasks
    simp only
    rw [e3, h6]

/-- Claim C13, amended, at the lines `x,abc,0` and `y,7,0` read into the
empty store of capacity 10: priority 0 and priority 7, both with the return
code 0; the line `y,7,0` with and without its newline; and after the line
`x,abc,0` the load goes on with the next line of the file. -/
theorem loadTasks_lenient_witness :
    Valid emptyStore ∧ 0 < emptyStore.capacity ∧ (capacityCheck true emptyStore).1 = 0
    ∧ FieldText "x".toList ∧ FieldText "abc".toList ∧ FieldText "0".toList
    ∧ FieldText "y".toList ∧ FieldText "7".toList
    ∧ (∃ td1, loadTasks (fun _ => true) emptyStore
          (some ("x".toList ++ [','] ++ "abc".toList ++ [','] ++ "0".toList ++ ['\n']))
          = some (0, td1)
        ∧ entries td1 = [{ name := "x".toList, priority := 0, completed := 0 }]
        ∧ loadTasks (fun _ => true) emptyStore
            (some ("x".toList ++ [','] ++ "abc".toList ++ [','] ++ "0".toList ++ ['\n']
              ++ "y,7,0\n".toList))
          = loadTasks (fun _ => true) td1 (some "y,7,0\n".toList))
    ∧ (∃ td1, loadTasks (fun _ => true) emptyStore
          (some ("y".toList ++ [','] ++ "7".toList ++ [','] ++ "0".toList ++ ['\n']))
          = some (0, td1)
        ∧ loadTasks (fun _ => true) emptyStore
          (some ("y".toList ++ [','] ++ "7".toList ++ [','] ++ "0".toList)) = some (0, td1)
        ∧ entries td1 = [{ name := "y".toList, priority := 7, completed := 0 }]) := by
  refine ⟨by decide, by decide, by decide, by decide, by decide, by decide, by decide,
    by decide, ?_, ?_⟩
  · obtain ⟨td1, _, h2, h3, h4, _, h6, h7⟩ :=
      loadTasks_lenient (fun _ => true) emptyStore "x".toList "abc".toList "0".toList
        (by decide) (by decide) (by decide) (by decide) (by decide) (by decide) (by decide)
    have e1 : atoi "abc".toList = 0 := (h6 (by decide) (by decide)).trans (by decide)
    have e2 : atoi "0".toList = 0 := (h7 (by decide) (by decide)).trans (by decide)
    rw [e1, e2] at h2
    exact ⟨td1, h4, h2, h3 _⟩
  · obtain ⟨td1, _, h2, _, h4, h5, h6, h7⟩ :=
      loadTasks_lenient (fun _ => true) emptyStore "y".toList "7".toList "0".toList
        (by decide) (by decide) (by decide) (by decide) (by decide) (by decide) (by decide)
    have e1 : atoi "7".toList = 7 := (h6 (by decide) (by decide)).trans (by decide)
    have e2 : atoi "0".toList = 0 := (h7 (by decide) (by decide)).trans (by decide)
    rw [e1, e2] at h2
    exact ⟨td1, h4, h5, h2⟩

/-! ## Releasing the store -/

/-- Claim C14: for every store, `freeList` leaves count 0, capacity 0 and no
buffer, and applying it twice gives the same store as applying it once. -/
theorem freeList_idempotent (td : todoList) :
    (freeList td).count = 0 ∧ (freeList td).capacity = 0 ∧ (freeList td).tasks = []
      ∧ freeList (freeList td) = freeList td :=
  ⟨rfl, rfl, rfl, rfl⟩

/-! ## The partition step -/

/-- Claim C15: for every array and indices `0 ≤ low ≤ high` inside it,
`partition` takes the entry at `high` as pivot and returns an index `p` with
`low ≤ p ≤ high` such that afterwards the entry at `p` is the pivot entry, the
entries at `low .. p - 1` have a priority strictly below the pivot priority,
the entries at `p + 1 .. high` have a priority not below it, the entries at
`low .. high` are a permutation of what they were, every entry outside
`low .. high` is unchanged, and the array has the same length. -/
theorem partition_contract (arr : List Task) (low high : Int) (h0 : 0 ≤ low)
    (h1 : low ≤ high) (h2 : high < (arr.length : Int)) :
    ∃ arr1 p pvt, readAt arr high = some pvt ∧ partition arr low high = some (arr1, p)
      ∧ low ≤ p ∧ p ≤ high ∧ readAt arr1 p = some pvt
      ∧ (∀ i, low ≤ i → i < p → ∃ a, readAt arr1 i = some a ∧ a.priority < pvt.priority)
      ∧ (∀ i, p < i → i ≤ high → ∃ a, readAt arr1 i = some a ∧ pvt.priority ≤ a.priority)
      ∧ (slice arr1 low high).Perm (slice arr low high)
      ∧ (∀ i, i < low ∨ high < i → readAt arr1 i = readAt arr i)
      ∧ arr1.length = arr.length := by
  have hh : high.toNat < arr.length := by omega
  -- the array as prefix, range without its last entry, pivot entry, suffix
  have hsplit : arr = arr.take low.toNat
      ++ ((arr.drop low.toNat).take (high - low).toNat ++ arr[high.toNat]
        :: arr.drop (high.toNat + 1)) := by
    have e1 : arr = arr.take low.toNat ++ arr.drop low.toNat := (List.take_append_drop _ _).symm
    have e2 : arr.drop low.toNat = (arr.drop low.toNat).take (high - low).toNat
        ++ (arr.drop low.toNat).drop (high - low).toNat := (List.take_append_drop _ _).symm
    have e3 : (arr.drop low.toNat).drop (high - low).toNat = arr.drop high.toNat := by
      rw [List.drop_drop]; congr 1; omega
    have e4 : arr.drop high.toNat = arr[high.toNat] :: arr.drop (high.toNat + 1) :=
      List.drop_eq_getElem_cons hh
    rw [e3, e4] at e2
    rw [← e2]; exact e1
  generalize hpre : arr.take low.toNat = pre at hsplit
  generalize hm : (arr.drop low.toNat).take (high - low).toNat = m at hsplit
  generalize hpost : arr.drop (high.toNat + 1) = post at hsplit
  generalize hpv : arr[high.toNat] = pvt at hsplit
  have hprelen : (pre.length : Int) = low := by
    rw [← hpre, List.length_take]; omega
  have hmlen : (m.length : Int) = high - low := by
    rw [← hm, List.length_take, List.length_drop]; omega
  obtain ⟨L, R, hp, hperm, hL, hR⟩ := partition_spec pre m pvt post low high hprelen.symm
    (by omega)
  have hlen : L.length + R.length = m.length := by
    have := hperm.length_eq; simpa using this
  have hread : readAt arr high = some pvt := by
    have e : arr = (pre ++ m) ++ pvt :: post := by rw [hsplit]; simp
    rw [e]; exact readAt_append_cons _ pvt _ high (by simp; omega)
  refine ⟨pre ++ (L ++ pvt :: (R ++ post)), (pre.length : Int) + L.length, pvt, hread, ?_,
    by omega, by omega, ?_, ?_, ?_, ?_, ?_, ?_⟩
  · rw [hsplit]; exact hp
  · have e : pre ++ (L ++ pvt :: (R ++ post)) = (pre ++ L) ++ pvt :: (R ++ post) := by simp
    rw [e]; exact readAt_append_cons _ pvt _ _ (by simp)
  · intro i hi0 hi1
    obtain ⟨a, ha, hr⟩ := readAt_middle pre L (pvt :: (R ++ post)) i (by omega) (by omega)
    exact ⟨a, hr, hL a ha⟩
  · intro i hi0 hi1
    have e : pre ++ (L ++ pvt :: (R ++ post)) = (pre ++ (L ++ [pvt])) ++ (R ++ post) := by simp
    obtain ⟨a, ha, hr⟩ := readAt_middle (pre ++ (L ++ [pvt])) R post i
      (by simp; omega) (by simp; omega)
    rw [e]
    exact ⟨a, hr, hR a ha⟩
  · have s1 : slice (pre ++ (L ++ pvt :: (R ++ post))) low high = L ++ pvt :: R := by
      unfold slice
      have e : pre ++ (L ++ pvt :: (R ++ post)) = pre ++ ((L ++ pvt :: R) ++ post) := by simp
      rw [e, List.drop_left' (by omega)]
      rw [show (high - low + 1).toNat = (L ++ pvt :: R).length by simp; omega]
      exact List.take_left _ _
    have s2 : slice arr low high = m ++ [pvt] := by
      unfold slice
      have e : arr = pre ++ ((m ++ [pvt]) ++ post) := by rw [hsplit]; simp
      rw [e, List.drop_left' (by omega)]
      rw [show (high - low + 1).toNat = (m ++ [pvt]).length by simp; omega]
      exact List.take_left _ _
    rw [s1, s2]
    have a1 : (L ++ pvt :: R).Perm (pvt :: (L ++ R)) := List.perm_middle
    have a2 : (m ++ [pvt]).Perm (pvt :: m) := List.perm_append_singleton pvt m
    exact (a1.trans (List.Perm.cons pvt hperm)).trans a2.symm
  · intro i hi
    rw [hsplit]
    rcases hi with hi | hi
    · exact readAt_prefix pre _ _ i (by omega)
    · have e1 : pre ++ (L ++ pvt :: (R ++ post)) = (pre ++ (L ++ pvt :: R)) ++ post := by simp
      have e2 : pre ++ (m ++ pvt :: post) = (pre ++ (m ++ [pvt])) ++ post := by simp
      rw [e1, e2]
      exact readAt_suffix _ _ post i (by simp; omega) (by simp; omega)
  · conv_rhs => rw [hsplit]
    simp only [List.length_append, List.length_cons]
    omega

/-- Claim C15 at the first three slots of the end-to-end example. -/
theorem partition_contract_witness :
    (0 : Int) ≤ 0 ∧ (0 : Int) ≤ 2 ∧ (2 : Int) < (milkStore.tasks.length : Int)
    ∧ ∃ arr1 p pvt, readAt milkStore.tasks 2 = some pvt
      ∧ partition milkStore.tasks 0 2 = some (arr1, p)
      ∧ 0 ≤ p ∧ p ≤ 2 ∧ readAt arr1 p = some pvt
      ∧ (∀ i, 0 ≤ i → i < p → ∃ a, readAt arr1 i = some a ∧ a.priority < pvt.priority)
      ∧ (∀ i, p < i → i ≤ 2 → ∃ a, readAt arr1 i = some a ∧ pvt.priority ≤ a.priority)
      ∧ (slice arr1 0 2).Perm (slice milkStore.tasks 0 2)
      ∧ (∀ i, i < 0 ∨ 2 < i → readAt arr1 i = readAt milkStore.tasks i)
      ∧ arr1.length = milkStore.tasks.length :=
  ⟨by decide, by decide, by decide,
    partition_contract milkStore.tasks 0 2 (by decide) (by decide) (by decide)⟩

/-! ## Stability -/

/-- Claim C16: `sortTasks` is not stable: on every store with two entries of
equal priority it exchanges the two entries; and a store with count 0 or 1 is
returned unchanged. -/
theorem sortTasks_not_stable :
    (∀ (a b : Task) (rest : List Task) (capacity : Int), a.priority = b.priority →
      sortTasks { tasks := a :: b :: rest, count := 2, capacity := capacity }
        = some { tasks := b :: a :: rest, count := 2, capacity := capacity })
    ∧ (∀ td : todoList, td.count ≤ 1 → sortTasks td = some td) := by
  constructor
  · intro a b rest capacity h
    simp [sortTasks, quickSortRecursion_step, quickSortRecursion_done, partition,
      partitionLoop_step, partitionLoop_done, swap, readAt, writeAt, h]
  · intro td h
    have : ¬ td.count > 1 := by omega
    simp [sortTasks, this]

/-- Claim C16 at a store with the entries "first" and "second", both of
priority 2, which come out as "second", "first"; at the freshly initialized
store; and at a store with one entry. -/
theorem sortTasks_not_stable_witness :
    (entries tieStore = [{ name := "first".toList, priority := 2, completed := 0 },
                         { name := "second".toList, priority := 2, completed := 0 }]
      ∧ (sortTasks tieStore).map entries
          = some [{ name := "second".toList, priority := 2, completed := 0 },
                  { name := "first".toList, priority := 2, completed := 0 }])
    ∧ emptyStore.count ≤ 1 ∧ sortTasks emptyStore = some emptyStore
    ∧ emptyNameStore.count ≤ 1 ∧ sortTasks emptyNameStore = some emptyNameStore := by
  refine ⟨⟨by decide, ?_⟩, by decide, sortTasks_not_stable.2 emptyStore (by decide),
    by decide, sortTasks_not_stable.2 emptyNameStore (by decide)⟩
  have h := sortTasks_not_stable.1 { name := "first".toList, priority := 2, completed := 0 }
    { name := "second".toList, priority := 2, completed := 0 }
    (List.replicate 8 uninitTask) 10 rfl
  have e : tieStore
      = { tasks := ({ name := "first".toList, priority := 2, completed := 0 } ::
            { name := "second".toList, priority := 2, completed := 0 } ::
            List.replicate 8 uninitTask),
          count := 2, capacity := 10 } := rfl
  rw [e, h]
  decide

/-! ## Termination of the sort -/

/-- Claim C17: `quickSortRecursion` is a total function: for every array and
every pair of indices it satisfies the recursion of the source, and when
`low < high` the index returned by `partition` lies in `low .. high`, so that
both recursive calls are on a range whose `high - low` is strictly smaller. -/
theorem quickSortRecursion_total (arr : List Task) (low high : Int) :
    quickSortRecursion arr low high
        = (if low < high then
            match partition arr low high with
            | none => none
            | some (arr1, piv) =>
              match quickSortRecursion arr1 low (piv - 1) with
              | none => none
              | some arr2 => quickSortRecursion arr2 (piv + 1) high
          else some arr)
      ∧ (∀ arr1 piv, low < high → partition arr low high = some (arr1, piv) →
          low ≤ piv ∧ piv ≤ high
            ∧ ((piv - 1) - low).toNat < (high - low).toNat
            ∧ (high - (piv + 1)).toNat < (high - low).toNat) := by
  constructor
  · by_cases h : low < high
    · rw [quickSortRecursion_step _ _ _ h, if_pos h]
    · rw [quickSortRecursion_done _ _ _ h, if_neg h]
  · intro arr1 piv h hp
    have hb := partition_index arr low high arr1 piv (le_of_lt h) hp
    omega

/-- Claim C17 at the first three slots of the end-to-end example, where
`partition` returns the index 2. -/
theorem quickSortRecursion_total_witness :
    (0 : Int) < 2
    ∧ partition milkStore.tasks 0 2 = some (milkStore.tasks, 2)
    ∧ ((0 : Int) ≤ 2 ∧ (2 : Int) ≤ 2
        ∧ (((2 : Int) - 1) - 0).toNat < ((2 : Int) - 0).toNat
        ∧ ((2 : Int) - (2 + 1)).toNat < ((2 : Int) - 0).toNat) :=
  ⟨by decide,
    by simp [milkStore, partition, partitionLoop_step, partitionLoop_done, swap, readAt,
      writeAt],
    (quickSortRecursion_total milkStore.tasks 0 2).2 milkStore.tasks 2 (by decide)
      (by simp [milkStore, partition, partitionLoop_step, partitionLoop_done, swap, readAt,
        writeAt])⟩

/-! ## Array accesses stay below count -/

/-- Claim C18: for every valid store and every name, `sortTasks` and
`deleteTask` return on the store whose buffer is cut to its first count slots,
where every access at an index outside `0 .. count - 1` fails; and on the
store itself they do the same and leave the slots from count on untouched. -/
theorem accesses_below_count (td : todoList) (name : List Char) (hv : Valid td) :
    (∃ td1, sortTasks (cutStore td) = some td1
      ∧ sortTasks td = some { td1 with tasks := td1.tasks ++ td.tasks.drop td.count.toNat })
    ∧ (∃ rc td2, deleteTask (cutStore td) name = some (rc, td2)
      ∧ deleteTask td name
          = some (rc, { td2 with tasks := td2.tasks ++ td.tasks.drop td.count.toNat })) := by
  obtain ⟨hsplit, hlen⟩ := tasks_split td hv
  have hv2 := hv
  obtain ⟨h0, h1, h2, h3⟩ := hv
  have hback : { cutStore td with tasks := (cutStore td).tasks ++ td.tasks.drop td.count.toNat }
      = td := by
    cases td with
    | mk tasks count capacity =>
      simp only [cutStore, entries]
      rw [List.take_append_drop]
  constructor
  · -- the sort on the cut buffer
    obtain ⟨S, hq, _, _⟩ := quickSortRecursion_spec (entries td).length [] (entries td) [] 0
      (td.count - 1) rfl (by simp) (by simp [hlen])
    simp only [List.nil_append, List.append_nil] at hq
    have hq2 := quickSortRecursion_frame (td.tasks.drop td.count.toNat) _ (entries td) 0
      (td.count - 1) S rfl hq
    rw [← hsplit] at hq2
    unfold sortTasks
    by_cases hc : td.count > 1
    · have hc' : (cutStore td).count > 1 := hc
      simp only [hc, hc', if_true]
      have e1 : (cutStore td).tasks = entries td := rfl
      have e2 : (cutStore td).count = td.count := rfl
      rw [e1, e2, hq, hq2]
      exact ⟨_, rfl, rfl⟩
    · have hc' : ¬ (cutStore td).count > 1 := hc
      simp only [hc, hc', if_false]
      exact ⟨_, rfl, by rw [hback]⟩
  · -- the deletion on the cut buffer
    have hex : ∃ r, deleteLoop (cutStore td) name 0 = some r := by
      by_cases hm : ∃ t ∈ entries td, t.name = name
      · obtain ⟨A, x, B, hE, hx, hA⟩ := exists_first_match name _ hm
        rw [hE] at hlen
        simp only [List.length_append, List.length_cons] at hlen
        obtain ⟨z, hz⟩ := deleteLoop_found (cutStore td) name x B [] hx A [] 0
          (by simp [cutStore, hE]) (by simp [cutStore]; push_cast at hlen; omega) (by simp) hA
        exact ⟨_, hz⟩
      · have hA : ∀ t ∈ entries td, t.name ≠ name := fun t ht hn => hm ⟨t, ht, hn⟩
        exact ⟨_, deleteLoop_absent (cutStore td) name [] (entries td) [] 0
          (by simp [cutStore]) (by simp [cutStore, hlen]) (by simp) hA⟩
    obtain ⟨⟨rc, td2⟩, hd⟩ := hex
    have hf := deleteLoop_frame (cutStore td) name (td.tasks.drop td.count.toNat) _ 0 rc td2
      rfl hd
    rw [hback] at hf
    exact ⟨rc, td2, hd, hf⟩

/-- Claim C18 at a store whose two entries have the same priority, so that no
entry is below the pivot, and whose first entry is deleted, so that the shift
loop reads slot 1. -/
theorem accesses_below_count_witness :
    Valid tieStore
    ∧ (∃ td1, sortTasks (cutStore tieStore) = some td1
        ∧ sortTasks tieStore
            = some { td1 with tasks := td1.tasks ++ tieStore.tasks.drop tieStore.count.toNat })
    ∧ (∃ rc td2, deleteTask (cutStore tieStore) "first".toList = some (rc, td2)
        ∧ deleteTask tieStore "first".toList
            = some (rc, { td2 with
                tasks := td2.tasks ++ tieStore.tasks.drop tieStore.count.toNat })) :=
  ⟨by decide, accesses_below_count tieStore "first".toList (by decide)⟩

/-! ## Names of loaded tasks -/

/-- Claim C19: for every file content, every allocator and every valid store,
when `loadTasks` returns, the entries are the previous entries followed by
entries whose names are non-empty, without comma, without newline and of at
most 99 characters; and it returns whenever the capacity is not 0. -/
theorem loadTasks_names (ok : Nat → Bool) (td : todoList) (content : List Char)
    (hv : Valid td) :
    (∀ rc td1, loadTasks ok td (some content) = some (rc, td1) →
      ∃ added, entries td1 = entries td ++ added
        ∧ ∀ t ∈ added, t.name ≠ [] ∧ ',' ∉ t.name ∧ '\n' ∉ t.name ∧ t.name.length ≤ 99)
    ∧ (0 < td.capacity → ∃ rc td1, loadTasks ok td (some content) = some (rc, td1)) := by
  obtain ⟨h1, h2⟩ := loadLoop_inv content.length content td ok rfl hv
  constructor
  · intro rc td1 hl
    obtain ⟨_, _, _, added, i4, i5⟩ := h1 (rc, td1) hl
    exact ⟨added, i4, i5⟩
  · intro hpos
    obtain ⟨⟨rc, td1⟩, hr⟩ := h2 hpos
    exact ⟨rc, td1, hr⟩

/-- Claim C19 at a file whose first line is `,2,0`: nothing is loaded from it,
in particular no task with an empty name. -/
theorem loadTasks_names_witness :
    Valid emptyStore ∧ 0 < emptyStore.capacity
    ∧ (∃ rc td1, loadTasks (fun _ => true) emptyStore (some ",2,0\na,1,0\n".toList)
          = some (rc, td1)
        ∧ ∃ added, entries td1 = entries emptyStore ++ added
          ∧ ∀ t ∈ added, t.name ≠ [] ∧ ',' ∉ t.name ∧ '\n' ∉ t.name ∧ t.name.length ≤ 99)
    ∧ loadTasks (fun _ => true) emptyStore (some ",2,0\na,1,0\n".toList)
        = some (0, emptyStore) := by
  refine ⟨by decide, by decide, ?_, ?_⟩
  · obtain ⟨h1, h2⟩ :=
      loadTasks_names (fun _ => true) emptyStore ",2,0\na,1,0\n".toList (by decide)
    obtain ⟨rc, td1, hl⟩ := h2 (by decide)
    exact ⟨rc, td1, hl, h1 rc td1 hl⟩
  · unfold loadTasks
    simp only
    rw [loadLoop_step]
    simp [fgets, readLine, capacityCheck, emptyStore, cstr, strcspn, strtok]

end TaskManager
